import Mathlib

/-!
Verification development for the Arbgoonio poll/diff/retain engine.

The definitions below are a shallow embedding of the Python sources:
  * `src/api/polymarket_api.py`  — `fetch_all_events`, `make_event_url`, `parse_prices`
  * `src/services/scanner.py`   — module state, the initial seed, and the steady-state
    tick body of `scan_loop`
  * `src/config.py`             — `MAX_MOVES`

Python floats are modelled by `PyFloat` (a rational plus the non-finite values
Infinity, -Infinity and NaN that `float` and `json.loads` can produce); Python
JSON values by `PyVal`; Python dicts by insertion-ordered association lists
over string keys (`Dict`).  The scanner tick is modelled on its normal
(exception-free) path with all parsed prices finite; the general behaviour of
`parse_prices`, including its uncaught-exception path, is modelled separately
in the API layer.
-/

namespace Arbgoonio

/-- Exception classes relevant to `parse_prices`: the `except` clause of the
source catches `IndexError`, `TypeError` and `ValueError`; `KeyError` is not
caught. -/
inductive PyErr where
  | indexError
  | typeError
  | valueError
  | keyError
deriving DecidableEq

/-- A Python float: either a finite value (modelled exactly as a rational) or
one of the non-finite values that `float("inf")`, `float("nan")` and Python's
`json.loads` (which accepts the `Infinity`, `-Infinity` and `NaN` literals)
can produce. -/
inductive PyFloat where
  | fin (q : ℚ)
  | inf
  | ninf
  | nan
deriving DecidableEq

/-- Whether a Python float is finite. -/
def PyFloat.isFinite : PyFloat → Bool
  | .fin _ => true
  | _ => false

/-- A Python value as produced by `json.loads` (or passed pre-parsed by the
upstream payload): `null`, booleans, numbers, strings, arrays, and objects
with string keys. -/
inductive PyVal where
  | null
  | bool (b : Bool)
  | num (f : PyFloat)
  | str (s : String)
  | list (xs : List PyVal)
  | dict (kvs : List (String × PyVal))

/-- Whether a Python value is a dict. -/
def PyVal.isDict : PyVal → Bool
  | .dict _ => true
  | _ => false

/-- Whitespace recognised when parsing. -/
def isWs (c : Char) : Bool :=
  c = ' ' || c = '\t' || c = '\n' || c = '\r'

/-- Numeric value of a digit string, most significant digit first. -/
def digitsToNat (ds : List Char) : Nat :=
  ds.foldl (fun acc c => 10 * acc + (c.toNat - '0'.toNat)) 0

/-- Exponent suffix of a decimal numeral: an optional sign and a nonempty run
of digits consuming the rest of the input. -/
def floatExpPart (neg : Bool) (mant : ℚ) (rexp : List Char) : Option PyFloat :=
  let (eneg, rexp1) : Bool × List Char :=
    match rexp with
    | '-' :: r => (true, r)
    | '+' :: r => (false, r)
    | r => (false, r)
  let (es, rest) := rexp1.span Char.isDigit
  if es ≠ [] ∧ rest = [] then
    let e := digitsToNat es
    let v := if eneg then mant / (10 ^ e : ℚ) else mant * (10 ^ e : ℚ)
    some (.fin (if neg then -v else v))
  else none

/-- Tail of a decimal numeral after the mantissa: either nothing or an
exponent marker followed by the exponent. -/
def floatFinish (neg : Bool) (mant : ℚ) (rest : List Char) : Option PyFloat :=
  match rest with
  | [] => some (.fin (if neg then -mant else mant))
  | 'e' :: r => floatExpPart neg mant r
  | 'E' :: r => floatExpPart neg mant r
  | _ => none

/-- Model of the builtin `float(str)` conversion on the fragment the upstream
payload can contain: optional surrounding whitespace, an optional sign, then
either the keywords `inf`/`infinity`/`nan` (case-insensitive) or a decimal
numeral with optional fractional part and exponent (digit-group underscores
are not modelled).  Returns `none` where Python raises `ValueError`. -/
def floatOfChars (cs0 : List Char) : Option PyFloat :=
  let cs1 := ((cs0.dropWhile isWs).reverse.dropWhile isWs).reverse
  let (neg, cs2) : Bool × List Char :=
    match cs1 with
    | '-' :: r => (true, r)
    | '+' :: r => (false, r)
    | r => (false, r)
  let low := cs2.map Char.toLower
  if low = "inf".toList ∨ low = "infinity".toList then
    some (if neg then .ninf else .inf)
  else if low = "nan".toList then
    some .nan
  else
    let (ds, r1) := cs2.span Char.isDigit
    match r1 with
    | '.' :: r =>
        let (fs, r2) := r.span Char.isDigit
        if ds = [] ∧ fs = [] then none
        else
          floatFinish neg ((digitsToNat ds : ℚ) + (digitsToNat fs : ℚ) / (10 ^ fs.length : ℚ)) r2
    | _ =>
        if ds = [] then none
        else floatFinish neg (digitsToNat ds : ℚ) r1

/-- Model of the builtin `float(str)`. -/
def floatOfString (s : String) : Option PyFloat :=
  floatOfChars s.toList

/-- Escape characters inside a JSON string literal (basic escapes only;
`\u` sequences are carried through unchanged in this fragment). -/
def escChar (c : Char) : Char :=
  if c = 'n' then '\n'
  else if c = 't' then '\t'
  else if c = 'r' then '\r'
  else c

/-- JSON string body after the opening quote, accumulating into `acc`;
`fuel` bounds the recursion by the input length. -/
def pjStr : Nat → List Char → String → Option (String × List Char)
  | 0, _, _ => Option.none
  | Nat.succ fuel, s, acc =>
    match s with
    | [] => Option.none
    | '"' :: r => some (acc, r)
    | '\\' :: c :: r => pjStr fuel r (acc.push (escChar c))
    | c :: r => pjStr fuel r (acc.push c)

/-- JSON number starting at the current position (sign, integer part,
optional fraction, optional exponent); leading-zero restrictions of the
strict JSON grammar are not modelled. -/
def pjNum (s : List Char) : Option (PyFloat × List Char) :=
  let (neg, s1) : Bool × List Char :=
    match s with
    | '-' :: r => (true, r)
    | r => (false, r)
  let (ds, r1) := s1.span Char.isDigit
  if ds = [] then none
  else
    let (mant, r2) : ℚ × List Char :=
      match r1 with
      | '.' :: r =>
          let (fs, r') := r.span Char.isDigit
          ((digitsToNat ds : ℚ) + (digitsToNat fs : ℚ) / (10 ^ fs.length : ℚ), r')
      | _ => ((digitsToNat ds : ℚ), r1)
    let finishExp : Bool → List Char → Option (PyFloat × List Char) := fun eneg rexp =>
      let (es, rest) := rexp.span Char.isDigit
      if es = [] then none
      else
        let e := digitsToNat es
        let v := if eneg then mant / (10 ^ e : ℚ) else mant * (10 ^ e : ℚ)
        some (.fin (if neg then -v else v), rest)
    match r2 with
    | 'e' :: '-' :: r => finishExp true r
    | 'e' :: '+' :: r => finishExp false r
    | 'e' :: r => finishExp false r
    | 'E' :: '-' :: r => finishExp true r
    | 'E' :: '+' :: r => finishExp false r
    | 'E' :: r => finishExp false r
    | _ => some (.fin (if neg then -mant else mant), r2)

mutual

/-- One JSON value, modelling `json.loads` with Python's default extensions
(`NaN`, `Infinity`, `-Infinity` accepted as numbers). -/
def pjVal : Nat → List Char → Option (PyVal × List Char)
  | 0, _ => Option.none
  | Nat.succ fuel, s =>
    match s.dropWhile isWs with
    | 'n' :: 'u' :: 'l' :: 'l' :: r => some (.null, r)
    | 't' :: 'r' :: 'u' :: 'e' :: r => some (.bool true, r)
    | 'f' :: 'a' :: 'l' :: 's' :: 'e' :: r => some (.bool false, r)
    | 'N' :: 'a' :: 'N' :: r => some (.num .nan, r)
    | 'I' :: 'n' :: 'f' :: 'i' :: 'n' :: 'i' :: 't' :: 'y' :: r => some (.num .inf, r)
    | '-' :: 'I' :: 'n' :: 'f' :: 'i' :: 'n' :: 'i' :: 't' :: 'y' :: r => some (.num .ninf, r)
    | '"' :: r =>
        match pjStr r.length.succ r "" with
        | some (str, r') => some (.str str, r')
        | Option.none => Option.none
    | '[' :: r =>
        (match (r.dropWhile isWs) with
         | ']' :: r' => some (.list [], r')
         | _ => pjArr fuel r [])
    | '{' :: r =>
        (match (r.dropWhile isWs) with
         | '}' :: r' => some (.dict [], r')
         | _ => pjObj fuel r [])
    | other =>
        match pjNum other with
        | some (f, r) => some (.num f, r)
        | Option.none => Option.none

/-- Comma-separated JSON array elements after the opening bracket. -/
def pjArr : Nat → List Char → List PyVal → Option (PyVal × List Char)
  | 0, _, _ => Option.none
  | Nat.succ fuel, s, acc =>
    match pjVal fuel s with
    | Option.none => Option.none
    | some (v, r) =>
      match r.dropWhile isWs with
      | ',' :: r' => pjArr fuel r' (acc ++ [v])
      | ']' :: r' => some (.list (acc ++ [v]), r')
      | _ => Option.none

/-- Comma-separated JSON object members after the opening brace. -/
def pjObj : Nat → List Char → List (String × PyVal) → Option (PyVal × List Char)
  | 0, _, _ => Option.none
  | Nat.succ fuel, s, acc =>
    match s.dropWhile isWs with
    | '"' :: r =>
      (match pjStr r.length.succ r "" with
       | Option.none => Option.none
       | some (k, r1) =>
         match r1.dropWhile isWs with
         | ':' :: r2 =>
           (match pjVal fuel r2 with
            | Option.none => Option.none
            | some (v, r3) =>
              match r3.dropWhile isWs with
              | ',' :: r4 => pjObj fuel r4 (acc ++ [(k, v)])
              | '}' :: r4 => some (.dict (acc ++ [(k, v)]), r4)
              | _ => Option.none)
         | _ => Option.none)
    | _ => Option.none

end

/-- Model of `json.loads` on a whole document: a single value with only
trailing whitespace permitted.  Returns `none` where Python raises
`json.JSONDecodeError`. -/
def jsonLoads (s : String) : Option PyVal :=
  match pjVal (s.toList.length.succ.succ) s.toList with
  | some (v, r) => if r.dropWhile isWs = [] then some v else Option.none
  | Option.none => Option.none

/-- Subscripting `raw[i]` with a small integer index `i`, as in the source's
`float(raw[0])`: lists index positionally (`IndexError` past the end),
strings yield a one-character string, dicts look up the integer key — which a
JSON-derived dict (string keys only) never contains, so a `KeyError` is
raised — and other values raise `TypeError`. -/
def subscript (v : PyVal) (i : Nat) : Except PyErr PyVal :=
  match v with
  | .list xs =>
    (match xs.get? i with
     | some x => .ok x
     | Option.none => .error .indexError)
  | .str s =>
    (match s.toList.get? i with
     | some c => .ok (.str (String.mk [c]))
     | Option.none => .error .indexError)
  | .dict _ => .error .keyError
  | _ => .error .typeError

/-- The builtin `float(x)` conversion on a Python value: numbers pass
through, booleans become 0 or 1, strings are parsed (`ValueError` on
failure), everything else raises `TypeError`. -/
def pyFloatConvert (v : PyVal) : Except PyErr PyFloat :=
  match v with
  | .num f => .ok f
  | .bool b => .ok (.fin (if b then 1 else 0))
  | .str s =>
    (match floatOfString s with
     | some f => .ok f
     | Option.none => .error .valueError)
  | _ => .error .typeError

/-- The expression `float(raw[i])` from the source. -/
def floatAt (v : PyVal) (i : Nat) : Except PyErr PyFloat :=
  match subscript v i with
  | .error e => .error e
  | .ok x => pyFloatConvert x

instance {ε α : Type} [DecidableEq ε] [DecidableEq α] : DecidableEq (Except ε α) := fun a b =>
  match a, b with
  | .error e, .error e' =>
      if h : e = e' then .isTrue (by rw [h]) else .isFalse (by simp [h])
  | .ok x, .ok y =>
      if h : x = y then .isTrue (by rw [h]) else .isFalse (by simp [h])
  | .error _, .ok _ => .isFalse (by simp)
  | .ok _, .error _ => .isFalse (by simp)

/-- Whether the source's `except (IndexError, TypeError, ValueError)` clause
catches an exception. -/
def isCaught : PyErr → Bool
  | .keyError => false
  | _ => true

/-- The `isinstance(raw, str)` branch of `parse_prices`: strings are decoded
with `json.loads` (`none` models the caught `JSONDecodeError`), everything
else passes through. -/
def decodeRaw (raw : PyVal) : Option PyVal :=
  match raw with
  | .str s => jsonLoads s
  | v => some v

/-- `parse_prices` from `src/api/polymarket_api.py`: decode string input,
then `return float(raw[0]), float(raw[1])` with `IndexError`, `TypeError`
and `ValueError` caught and turned into `None`.  `Except.error` models an
exception escaping the function (possible only as a `KeyError` from
subscripting a dict). -/
def parse_prices (raw : PyVal) : Except PyErr (Option (PyFloat × PyFloat)) :=
  match decodeRaw raw with
  | Option.none => .ok Option.none
  | some v =>
    match floatAt v 0 with
    | .error e => if isCaught e then .ok Option.none else .error e
    | .ok a =>
      match floatAt v 1 with
      | .error e => if isCaught e then .ok Option.none else .error e
      | .ok b => .ok (some (a, b))

/-- The parse result the scanner model works with: the quote produced by
`parse_prices` restricted to executions in which the parse neither raises nor
yields a non-finite float.  The general behaviour of `parse_prices`
(non-finite quotes, the uncaught `KeyError`) is settled in the API-layer
theorems; on the scanner's normal path every quote is a pair of finite
probabilities and this projection agrees with the source. -/
def parsePricesFin (raw : PyVal) : Option (ℚ × ℚ) :=
  match parse_prices raw with
  | .ok (some (.fin a, .fin b)) => some (a, b)
  | _ => Option.none

/-! ## Python dicts as insertion-ordered association lists -/

/-- A Python dict with string keys, modelled as an insertion-ordered
association list (the key order is the order of first insertion, as in
Python). -/
abbrev Dict (α : Type) : Type := List (String × α)

/-- Dict lookup, `d.get(k)` / `d[k]` when present. -/
def dictGet {α : Type} (d : Dict α) (k : String) : Option α :=
  Option.map (fun p => p.2) (List.find? (fun p => p.1 == k) d)

/-- Dict store, `d[k] = v`: overwrite in place when the key exists, append
otherwise. -/
def dictSet {α : Type} (d : Dict α) (k : String) (v : α) : Dict α :=
  match d with
  | [] => [(k, v)]
  | p :: rest => if p.1 == k then (k, v) :: rest else p :: dictSet rest k v

/-- Dict removal, `del d[k]` (the source only deletes keys it has just
checked with `in`). -/
def dictDel {α : Type} (d : Dict α) (k : String) : Dict α :=
  List.filter (fun p => !(p.1 == k)) d

/-- Dict membership, `k in d`. -/
def dictContains {α : Type} (d : Dict α) (k : String) : Bool :=
  List.any d (fun p => p.1 == k)

/-- Number of entries, `len(d)`. -/
def dictLen {α : Type} (d : Dict α) : Nat :=
  List.length d

/-! ## Payloads and records of the scanner

The upstream payload fields the scanner reads.  Numeric metadata fields
(`volume`, `volume24hr`, `liquidity`) are modelled as the rational the
source's `float(... .get(field, 0))` produces on a well-typed payload;
`outcomePrices` is kept raw, exactly as handed to `parse_prices`. -/

/-- One market object of an upstream event payload. -/
structure PMMarket where
  id : String
  question : String
  outcomePrices : PyVal
  volume : ℚ
  volume24hr : ℚ
  liquidity : ℚ

/-- One event object of an upstream payload. -/
structure PMEvent where
  id : String
  title : String
  slug : Option String
  volume : ℚ
  volume24hr : ℚ
  liquidity : ℚ
  markets : List PMMarket

/-- Simplified model of the third-party `slugify`: lowercase, alphanumeric
runs joined by single hyphens. -/
def slugify (s : String) : String :=
  let t := s.toList.map (fun c => if c.isAlphanum then c.toLower else ' ')
  String.intercalate "-" (((String.mk t).splitOn " ").filter (fun w => w ≠ ""))

/-- `make_event_url` from `src/api/polymarket_api.py`; Python's
`ev.get("slug") or slugify(ev["title"])` treats a missing or empty slug as
falsy. -/
def makeEventUrl (ev : PMEvent) : String :=
  let slug :=
    match ev.slug with
    | some s => if s = "" then slugify ev.title else s
    | Option.none => slugify ev.title
  "https://polymarket.com/event/" ++ slug ++ "?tid=" ++ ev.id

/-- An `events_meta` entry (`{id, title, link, volume, volume24hr,
liquidity}`). -/
structure EventMeta where
  id : String
  title : String
  link : String
  volume : ℚ
  volume24hr : ℚ
  liquidity : ℚ
deriving DecidableEq

/-- The per-market record `rec` built on each tick (the stored MarketQuote
plus its delta fields). -/
structure MarketRec where
  id : String
  question : String
  yes : ℚ
  no : ℚ
  yd : ℚ
  nd : ℚ
  ydir : String
  ndir : String
  max_move : ℚ
  volume : ℚ
  volume24hr : ℚ
  liquidity : ℚ
deriving DecidableEq

/-- A move-history entry.  The source builds it as a dict of contextual
fields merged with `**rec`; the keys `question`, `max_move`, `volume` and
`liquidity` appear in both parts with identical values and `**rec` wins, so
the record is modelled as the contextual fields plus the embedded `rec`. -/
structure Move where
  time_ts : ℚ
  event_id : String
  event_title : String
  event_link : String
  market_id : String
  event_volume : ℚ
  info : MarketRec
deriving DecidableEq

/-- An `events_data` / `updated` entry: `{**meta, "markets": mkts,
"total_volume": ..., "total_liquidity": ...}`. -/
structure EventSnap where
  meta : EventMeta
  markets : List MarketRec
  total_volume : ℚ
  total_liquidity : ℚ
deriving DecidableEq

/-- `MAX_MOVES` from `src/config.py`. -/
def MAX_MOVES : Nat := 500

/-- The scanner's module-level state from `src/services/scanner.py`. -/
structure ScanState where
  events_meta : Dict EventMeta
  events_data : Dict EventSnap
  last_prices : Dict (ℚ × ℚ)
  recent_moves : List Move

/-- The published status record; `sound_trigger` is `none` when the key is
absent (the source pops it when no trigger fires). -/
structure Status where
  text : String
  last_update : ℚ
  sound_trigger : Option (String × ℚ)
deriving DecidableEq

/-- Appending to `recent_moves`, a `deque(maxlen=MAX_MOVES)`: the oldest
entry is evicted from the left once the capacity is exceeded. -/
def dequeAppend (q : List Move) (m : Move) : List Move :=
  let q' := q ++ [m]
  if MAX_MOVES < q'.length then q'.drop (q'.length - MAX_MOVES) else q'

/-- The sign-to-direction rendering used for `ydir`/`ndir`: the em dash is
the source's rendering of a FLAT (exactly zero) change. -/
def direction (d : ℚ) : String :=
  if d > 0 then "UP" else if d < 0 then "DOWN" else "—"

/-- The dict literal `rec = {...}` of the tick body, as a function of the
market payload, the parsed quote `(y, n)` and the previous quote
`(py, pn)`. -/
def mkRec (m : PMMarket) (y n py pn : ℚ) : MarketRec :=
  let dy := (y - py) * 100
  let dn := (n - pn) * 100
  { id := m.id
    question := m.question
    yes := y * 100
    no := n * 100
    yd := |dy|
    nd := |dn|
    ydir := direction dy
    ndir := direction dn
    max_move := max |dy| |dn|
    volume := m.volume
    volume24hr := m.volume24hr
    liquidity := m.liquidity }

/-- The dict literal `move = {...}` of the tick body. -/
def mkMove (now : ℚ) (ev : PMEvent) (meta : EventMeta) (m : PMMarket) (y n py pn : ℚ) : Move :=
  { time_ts := now
    event_id := ev.id
    event_title := ev.title
    event_link := makeEventUrl ev
    market_id := m.id
    event_volume := meta.volume
    info := mkRec m y n py pn }

/-! ## The steady-state tick of `scan_loop`

The tick body is modelled on its normal path: `fetch_all_events` has
returned a list of events, every numeric metadata field converts cleanly,
and every parseable quote is finite (see `parsePricesFin`).  The in-place
mutations of the source are threaded through explicit accumulators in the
same order as the Python statements. -/

/-- The mutable state threaded through the inner `for m in ev["markets"]`
loop: `last_prices`, `recent_moves`, the tick-wide `new_moves`, and the
per-event `mkts`, `total_volume`, `total_liquidity`. -/
structure MarketAcc where
  lp : Dict (ℚ × ℚ)
  rm : List Move
  nm : List Move
  mkts : List MarketRec
  tv : ℚ
  tl : ℚ

/-- The body of the inner market loop: skip unparseable quotes; otherwise
diff against the previous quote (defaulting to the current one), accumulate
totals and the record, append a `Move` exactly when `dy != 0 or dn != 0`,
and unconditionally overwrite `last_prices[m["id"]]`. -/
def mstep (now : ℚ) (ev : PMEvent) (meta : EventMeta) (acc : MarketAcc) (m : PMMarket) : MarketAcc :=
  match parsePricesFin m.outcomePrices with
  | Option.none => acc
  | some (y, n) =>
    let pq := (dictGet acc.lp m.id).getD (y, n)
    let py := pq.1
    let pn := pq.2
    let dy := (y - py) * 100
    let dn := (n - pn) * 100
    let acc1 := { acc with
      tv := acc.tv + m.volume
      tl := acc.tl + m.liquidity
      mkts := acc.mkts ++ [mkRec m y n py pn] }
    let acc2 :=
      if dy ≠ 0 ∨ dn ≠ 0 then
        let mv := mkMove now ev meta m y n py pn
        { acc1 with rm := dequeAppend acc1.rm mv, nm := acc1.nm ++ [mv] }
      else acc1
    { acc2 with lp := dictSet acc2.lp m.id (y, n) }

/-- The inner market loop. -/
def mfold (now : ℚ) (ev : PMEvent) (meta : EventMeta) (ms : List PMMarket) (acc : MarketAcc) : MarketAcc :=
  ms.foldl (mstep now ev meta) acc

/-- The metadata record inserted by `events_meta.setdefault` when the event
is new. -/
def freshMeta (ev : PMEvent) : EventMeta :=
  { id := ev.id
    title := ev.title
    link := makeEventUrl ev
    volume := ev.volume
    volume24hr := ev.volume24hr
    liquidity := ev.liquidity }

/-- The state threaded through the outer `for ev in fetch_all_events(...)`
loop: the module state, the tick's `updated` dict, and `new_moves`. -/
structure TickAcc where
  st : ScanState
  updated : Dict EventSnap
  nm : List Move

/-- The body of the outer event loop: `setdefault` plus in-place refresh of
the metadata, the inner market loop, insertion into `updated` when the event
produced at least one record, and otherwise the zero-market cleanup that
deletes the event from `events_data` and `events_meta`. -/
def processEvent (now : ℚ) (acc : TickAcc) (ev : PMEvent) : TickAcc :=
  let meta0 := (dictGet acc.st.events_meta ev.id).getD (freshMeta ev)
  let meta := { meta0 with
    title := ev.title
    volume := ev.volume
    volume24hr := ev.volume24hr
    liquidity := ev.liquidity }
  let st0 := { acc.st with events_meta := dictSet acc.st.events_meta ev.id meta }
  let r := mfold now ev meta ev.markets
    { lp := st0.last_prices, rm := st0.recent_moves, nm := acc.nm, mkts := [], tv := 0, tl := 0 }
  let st1 := { st0 with last_prices := r.lp, recent_moves := r.rm }
  if r.mkts.isEmpty then
    { st :=
        if dictContains st1.events_data ev.id then
          { st1 with
            events_data := dictDel st1.events_data ev.id
            events_meta := dictDel st1.events_meta ev.id }
        else st1
      updated := acc.updated
      nm := r.nm }
  else
    { st := st1
      updated := dictSet acc.updated ev.id
        { meta := meta, markets := r.mkts, total_volume := r.tv, total_liquidity := r.tl }
      nm := r.nm }

/-- The outer event loop over the fetched list. -/
def efold (now : ℚ) (fetched : List PMEvent) (acc : TickAcc) : TickAcc :=
  fetched.foldl (processEvent now) acc

/-- The three-tier notification computed from this tick's `new_moves`:
`max(new_moves, key=lambda m: max(m["yd"], m["nd"]))` and its magnitude,
classified as high (>5), medium (>1) or low (>0.3). -/
def soundTrigger (nm : List Move) : Option (String × ℚ) :=
  match nm with
  | [] => Option.none
  | m0 :: rest =>
    let mag := rest.foldl (fun a m => max a (max m.info.yd m.info.nd)) (max m0.info.yd m0.info.nd)
    if mag > 5 then some ("high", mag)
    else if mag > 1 then some ("medium", mag)
    else if mag > (3 / 10 : ℚ) then some ("low", mag)
    else Option.none

/-- The outcome of one steady-state tick: the new module state, this tick's
`new_moves`, the arguments of the two save calls (`savedEvents = none` when
`updated` was empty and `save_events_to_file` was not called), and the
status published at the end of the tick. -/
structure TickResult where
  st : ScanState
  newMoves : List Move
  savedEvents : Option (Dict EventSnap)
  savedMoves : List Move
  status : Status

/-- One steady-state tick of `scan_loop` (`src/services/scanner.py`): run
the event loop, replace `events_data` by `updated` only when `updated` is
non-empty, save the moves, and publish the status with `last_update = now`.
The published status text is the success message regardless of how few
events the fetch returned; the `except` branch of the loop is reachable only
through exceptions that are outside this normal-path model. -/
def scanTick (fetched : List PMEvent) (now : ℚ) (st : ScanState) : TickResult :=
  let a := efold now fetched { st := st, updated := [], nm := [] }
  let st' := if a.updated.isEmpty then a.st else { a.st with events_data := a.updated }
  { st := st'
    newMoves := a.nm
    savedEvents := if a.updated.isEmpty then Option.none else some a.updated
    savedMoves := st'.recent_moves
    status :=
      { text := "Updated " ++ toString (dictLen st'.events_data) ++ " events with markets"
        last_update := now
        sound_trigger := soundTrigger a.nm } }

/-! ## The initial seed of `scan_loop` -/

/-- One market of the initial seed: `if p: last_prices[m["id"]] = p`. -/
def seedStep (lp : Dict (ℚ × ℚ)) (m : PMMarket) : Dict (ℚ × ℚ) :=
  match parsePricesFin m.outcomePrices with
  | some p => dictSet lp m.id p
  | Option.none => lp

/-- One event of the initial seed: store fresh metadata and record the
baseline quote of every parseable market; `events_data` and `recent_moves`
are not touched. -/
def seedEvent (st : ScanState) (ev : PMEvent) : ScanState :=
  { st with
    events_meta := dictSet st.events_meta ev.id (freshMeta ev)
    last_prices := ev.markets.foldl seedStep st.last_prices }

/-- The whole initial seed over the fetched list. -/
def seedPhase (st : ScanState) (fetched : List PMEvent) : ScanState :=
  fetched.foldl seedEvent st

/-! ## `fetch_all_events` from `src/api/polymarket_api.py`

The network is modelled as an oracle `net offset attempt`, returning the
decoded page or `none` for a transport failure of that attempt.  `fuel`
bounds the pagination loop (the upstream listing is finite). -/

/-- The retry loop for one page: up to `retriesLeft` attempts; `none` means
every attempt failed. -/
def attemptPage (net : Nat → Nat → Option (List PMEvent)) (offset attempt retriesLeft : Nat) :
    Option (List PMEvent) :=
  match retriesLeft with
  | 0 => Option.none
  | Nat.succ k =>
    match net offset attempt with
    | some b => some b
    | Option.none => attemptPage net offset (attempt + 1) k

/-- The pagination loop: accumulate pages until an empty or short page;
when a page fails all its attempts, return what was accumulated so far
rather than raising. -/
def fetchPages (net : Nat → Nat → Option (List PMEvent)) (pageSize maxRetries : Nat) :
    Nat → Nat → List PMEvent → List PMEvent
  | 0, _, out => out
  | Nat.succ fuel, offset, out =>
    match attemptPage net offset 0 maxRetries with
    | Option.none => out
    | some batch =>
      if batch.isEmpty then out
      else if batch.length < pageSize then out ++ batch
      else fetchPages net pageSize maxRetries fuel (offset + pageSize) (out ++ batch)

/-- `fetch_all_events` with its default `page_size=100`, `max_retries=3`. -/
def fetch_all_events (net : Nat → Nat → Option (List PMEvent)) (fuel : Nat) : List PMEvent :=
  fetchPages net 100 3 fuel 0 []

/-! ## Concrete fixtures

A minimal market and event used by the concrete witnesses and
counterexamples: market `M1` of event `E1`, quoted `(0.40, 0.60)` and then
`(0.45, 0.55)` as in the specification's scenario. -/

/-- Quote `(0.40, 0.60)` as a pre-parsed upstream payload. -/
def exQuoteA : PyVal := PyVal.list [PyVal.num (PyFloat.fin (2 / 5)), PyVal.num (PyFloat.fin (3 / 5))]

/-- Quote `(0.45, 0.55)` as a pre-parsed upstream payload. -/
def exQuoteB : PyVal := PyVal.list [PyVal.num (PyFloat.fin (9 / 20)), PyVal.num (PyFloat.fin (11 / 20))]

/-- Market `M1` with the given raw quote payload. -/
def exMarket (q : PyVal) : PMMarket :=
  { id := "M1", question := "Q?", outcomePrices := q, volume := 10, volume24hr := 3, liquidity := 7 }

/-- Event `E1` carrying the single market `M1`. -/
def exEvent (q : PyVal) : PMEvent :=
  { id := "E1", title := "Event One", slug := some "event-one"
    volume := 10, volume24hr := 3, liquidity := 7, markets := [exMarket q] }

/-- The empty module state. -/
def exState0 : ScanState :=
  { events_meta := [], events_data := [], last_prices := [], recent_moves := [] }

/-- The state after seeding with the `(0.40, 0.60)` quote. -/
def exSeeded : ScanState := seedPhase exState0 [exEvent exQuoteA]

/-- Whether an event payload carries at least one market with a parseable
quote (the condition under which the tick keeps the event). -/
def hasParseable (ms : List PMMarket) : Bool :=
  ms.any (fun m => (parsePricesFin m.outcomePrices).isSome)

/-- The ids of the markets of a list that parse, in order. -/
def parseableIds (ms : List PMMarket) : List String :=
  ms.filterMap (fun m => (parsePricesFin m.outcomePrices).map (fun _ => m.id))

/-- The parseable market ids of a whole fetched event list, in processing
order. -/
def tickIds (evs : List PMEvent) : List String :=
  evs.foldr (fun ev acc => parseableIds ev.markets ++ acc) []

/-- A market record as the tick stores it for the `(0.40,0.60) → (0.45,0.55)`
move of the fixtures. -/
def sampleRec : MarketRec :=
  { id := "M1", question := "Q?", yes := 45, no := 55, yd := 5, nd := 5
    ydir := "UP", ndir := "DOWN", max_move := 5, volume := 10, volume24hr := 3, liquidity := 7 }

/-- A family of pairwise distinct moves (distinguished by timestamp), used
to exercise the bounded history. -/
def mkSampleMove (i : Nat) : Move :=
  { time_ts := i, event_id := "E1", event_title := "Event One"
    event_link := "https://polymarket.com/event/event-one?tid=E1"
    market_id := "M1", event_volume := 10, info := sampleRec }

/-- A snapshot entry for event `E1` as published by the fixtures' tick. -/
def exSnap : EventSnap :=
  { meta := freshMeta (exEvent exQuoteA), markets := [sampleRec]
    total_volume := 10, total_liquidity := 7 }

/-- A pre-populated module state: `E1` published, `M1` at `(0.40, 0.60)`,
one move in the history. -/
def exStatePre : ScanState :=
  { events_meta := [("E1", freshMeta (exEvent exQuoteA))]
    events_data := [("E1", exSnap)]
    last_prices := [("M1", (2 / 5, 3 / 5))]
    recent_moves := [mkSampleMove 7] }

/-- Event `E1` whose only market has an unparseable quote payload. -/
def exEventBad : PMEvent :=
  { id := "E1", title := "Event One", slug := Option.none
    volume := 0, volume24hr := 0, liquidity := 0
    markets := [exMarket PyVal.null] }

/-- A second event `E2` with no markets at all. -/
def exEmptyEvent : PMEvent :=
  { id := "E2", title := "Event Two", slug := Option.none
    volume := 0, volume24hr := 0, liquidity := 0, markets := [] }

/-- The previous quote the tick diffs against: the `last_prices` entry,
defaulting to the current quote when the market is seen for the first time
(`last_prices.get(m["id"], (y, n))`). -/
def prevQuote (lp : Dict (ℚ × ℚ)) (mid : String) (y n : ℚ) : ℚ × ℚ :=
  (dictGet lp mid).getD (y, n)

/-- The source's move condition `dy != 0 or dn != 0` for a market with
parsed quote `(y, n)` against the table `lp`. -/
def fires (lp : Dict (ℚ × ℚ)) (mid : String) (y n : ℚ) : Prop :=
  (y - (prevQuote lp mid y n).1) * 100 ≠ 0 ∨ (n - (prevQuote lp mid y n).2) * 100 ≠ 0

instance (lp : Dict (ℚ × ℚ)) (mid : String) (y n : ℚ) : Decidable (fires lp mid y n) := by
  unfold fires
  infer_instance

/-- A network on which every request attempt fails. -/
def failNet : Nat → Nat → Option (List PMEvent) := fun _ _ => Option.none

/-! ## Direction and delta lemmas -/

theorem direction_up_iff (d : ℚ) : direction d = "UP" ↔ 0 < d := by
  unfold direction
  split_ifs with h1 h2
  · exact ⟨fun _ => h1, fun _ => rfl⟩
  · exact ⟨fun h => absurd h (by decide), fun h => absurd h h1⟩
  · exact ⟨fun h => absurd h (by decide), fun h => absurd h h1⟩

theorem direction_down_iff (d : ℚ) : direction d = "DOWN" ↔ d < 0 := by
  unfold direction
  split_ifs with h1 h2
  · exact ⟨fun h => absurd h (by decide), fun h => absurd h1 (asymm h)⟩
  · exact ⟨fun _ => h2, fun _ => rfl⟩
  · exact ⟨fun h => absurd h (by decide), fun h => absurd h h2⟩

theorem direction_flat_iff (d : ℚ) : direction d = "—" ↔ d = 0 := by
  unfold direction
  split_ifs with h1 h2
  · exact ⟨fun h => absurd h (by decide), fun h => absurd h1 (h ▸ lt_irrefl (0 : ℚ))⟩
  · exact ⟨fun h => absurd h (by decide), fun h => absurd h2 (h ▸ lt_irrefl (0 : ℚ))⟩
  · exact ⟨fun _ => le_antisymm (not_lt.mp h1) (not_lt.mp h2), fun _ => rfl⟩

/-! ## Claim C7 — direction of each side is the sign of its change -/

/-- C7: for each side independently, the stored direction of a market
record is UP exactly when that side's signed change is strictly positive,
DOWN exactly when it is strictly negative, and FLAT (rendered by the source
as the em dash) exactly when it is zero. -/
theorem C7_direction_sign (m : PMMarket) (y n py pn : ℚ) :
    ((mkRec m y n py pn).ydir = "UP" ↔ 0 < (y - py) * 100) ∧
    ((mkRec m y n py pn).ydir = "DOWN" ↔ (y - py) * 100 < 0) ∧
    ((mkRec m y n py pn).ydir = "—" ↔ (y - py) * 100 = 0) ∧
    ((mkRec m y n py pn).ndir = "UP" ↔ 0 < (n - pn) * 100) ∧
    ((mkRec m y n py pn).ndir = "DOWN" ↔ (n - pn) * 100 < 0) ∧
    ((mkRec m y n py pn).ndir = "—" ↔ (n - pn) * 100 = 0) := by
  refine ⟨?_, ?_, ?_, ?_, ?_, ?_⟩ <;>
    simp only [mkRec] <;>
    first
      | exact direction_up_iff _
      | exact direction_down_iff _
      | exact direction_flat_iff _

/-! ## Claim C8 — magnitude is the max of the absolute changes -/

/-- C8: the recorded magnitude equals `max(|yes_change|, |no_change|)`, is
never negative, and is unchanged when the yes and no sides (current and
previous quotes alike) are swapped. -/
theorem C8_magnitude (m : PMMarket) (y n py pn : ℚ) :
    (mkRec m y n py pn).max_move = max |(y - py) * 100| |(n - pn) * 100| ∧
    0 ≤ (mkRec m y n py pn).max_move ∧
    (mkRec m y n py pn).max_move = (mkRec m n y pn py).max_move := by
  refine ⟨rfl, ?_, ?_⟩
  · simp only [mkRec]
    exact le_max_of_le_left (abs_nonneg _)
  · simp only [mkRec]
    exact max_comm _ _

/-! ## Claim C3 — the stored yd/nd fields are absolute, not signed -/

/-- C3 counterexample: with market `M1` moving from `(0.40, 0.60)` to
`(0.45, 0.55)`, the no-side drops, so the claimed signed stored change would
be `(0.55 - 0.60) * 100 = -5`; the Move actually recorded by the tick stores
`nd = 5`.  The claim that the stored `yd`/`nd` are signed values, with drops
stored negative, is therefore false on the code. -/
theorem C3_counterexample :
    (scanTick [exEvent exQuoteB] 200 exSeeded).newMoves.map (fun mv => mv.info.nd) = [5] ∧
    ((11 / 20 : ℚ) - 3 / 5) * 100 = -5 ∧ (5 : ℚ) ≠ -5 := by
  refine ⟨?_, by norm_num, by norm_num⟩
  norm_num [scanTick, efold, processEvent, mfold, mstep, mkMove, mkRec, parsePricesFin,
    parse_prices, decodeRaw, floatAt, subscript, pyFloatConvert, seedPhase, seedEvent,
    seedStep, exSeeded, exState0, exEvent, exMarket, exQuoteA, exQuoteB, dictGet, dictSet,
    dictContains, dictDel, direction, dequeAppend, freshMeta, soundTrigger, dictLen]

/-- C3 as amended: the stored `yd` and `nd` of every record built by the
tick are the absolute changes `|new - previous| * 100` (hence never
negative); the sign is carried separately by the `ydir`/`ndir` direction
fields. -/
theorem C3_stored_changes_absolute (m : PMMarket) (y n py pn : ℚ) :
    (mkRec m y n py pn).yd = |(y - py) * 100| ∧
    (mkRec m y n py pn).nd = |(n - pn) * 100| ∧
    0 ≤ (mkRec m y n py pn).yd ∧
    0 ≤ (mkRec m y n py pn).nd ∧
    (mkRec m y n py pn).ydir = direction ((y - py) * 100) ∧
    (mkRec m y n py pn).ndir = direction ((n - pn) * 100) := by
  exact ⟨rfl, rfl, abs_nonneg _, abs_nonneg _, rfl, rfl⟩

/-! ## Claim C9 — parse_prices error behaviour -/

theorem pyFloatConvert_no_keyError (x : PyVal) : pyFloatConvert x ≠ .error .keyError := by
  cases x <;> simp [pyFloatConvert]
  case str s => cases floatOfString s <;> simp

theorem subscript_keyError_iff (v : PyVal) (i : Nat) :
    subscript v i = .error .keyError ↔ v.isDict = true := by
  cases v <;> simp only [subscript, PyVal.isDict] <;> try simp
  case str s => split <;> simp
  case list xs => split <;> simp

theorem floatAt_keyError_iff (v : PyVal) (i : Nat) :
    floatAt v i = .error .keyError ↔ v.isDict = true := by
  unfold floatAt
  cases hs : subscript v i with
  | error e =>
    constructor
    · intro h
      injection h with h
      subst h
      exact (subscript_keyError_iff v i).mp hs
    · intro h
      have h2 := (subscript_keyError_iff v i).mpr h
      rw [hs] at h2
      injection h2 with h2
      subst h2
      rfl
  | ok x =>
    constructor
    · intro h; exact absurd h (pyFloatConvert_no_keyError x)
    · intro h
      have h2 := (subscript_keyError_iff v i).mpr h
      rw [hs] at h2
      exact Except.noConfusion h2

theorem parse_prices_error_iff (raw : PyVal) (e : PyErr) :
    parse_prices raw = .error e ↔
      e = .keyError ∧ ∃ v, decodeRaw raw = some v ∧ v.isDict = true := by
  unfold parse_prices
  cases hd : decodeRaw raw with
  | none => simp
  | some v =>
    dsimp only
    cases hdict : PyVal.isDict v with
    | true =>
      have h0 : floatAt v 0 = .error .keyError := (floatAt_keyError_iff v 0).mpr hdict
      rw [h0]
      constructor
      · intro h
        have h2 : (Except.error PyErr.keyError :
            Except PyErr (Option (PyFloat × PyFloat))) = Except.error e := h
        injection h2 with h2
        exact ⟨h2.symm, v, rfl, hdict⟩
      · rintro ⟨he, -⟩
        subst he
        rfl
    | false =>
      cases h0 : floatAt v 0 with
      | error e0 =>
        cases e0 with
        | keyError => exact absurd ((floatAt_keyError_iff v 0).mp h0) (by simp [hdict])
        | indexError => simp [isCaught, hdict]
        | typeError => simp [isCaught, hdict]
        | valueError => simp [isCaught, hdict]
      | ok a0 =>
        cases h1 : floatAt v 1 with
        | error e1 =>
          cases e1 with
          | keyError => exact absurd ((floatAt_keyError_iff v 1).mp h1) (by simp [hdict])
          | indexError => simp [isCaught, hdict]
          | typeError => simp [isCaught, hdict]
          | valueError => simp [isCaught, hdict]
        | ok b0 => simp [hdict]

theorem parse_prices_quote_iff (raw : PyVal) (a b : PyFloat) :
    parse_prices raw = .ok (some (a, b)) ↔
      ∃ v, decodeRaw raw = some v ∧ floatAt v 0 = .ok a ∧ floatAt v 1 = .ok b := by
  unfold parse_prices
  cases hd : decodeRaw raw with
  | none => simp
  | some v =>
    dsimp only
    cases h0 : floatAt v 0 with
    | error e0 => cases he : isCaught e0 <;> simp [he, h0]
    | ok a0 =>
      cases h1 : floatAt v 1 with
      | error e1 => cases he : isCaught e1 <;> simp [he, h0, h1]
      | ok b0 => simp [h0, h1, and_assoc]

/-- C9 counterexample: the upstream JSON `[Infinity, 0.5]` (Python's
`json.loads` accepts the `Infinity` literal and `float` maps it to a
non-finite value) passes straight through `parse_prices`: a quote is
produced whose yes side is not a finite float, so "a quote is only produced
when both sides parse as finite floats" is false on the code. -/
theorem C9_counterexample :
    parse_prices (PyVal.list [PyVal.num PyFloat.inf, PyVal.num (PyFloat.fin (1 / 2))]) =
      .ok (some (PyFloat.inf, PyFloat.fin (1 / 2))) ∧
    PyFloat.inf.isFinite = false := by
  exact ⟨rfl, rfl⟩

/-- C9 as amended: `parse_prices` accepts either a pre-parsed pair or a
string-encoded array; a string that fails to JSON-decode yields `None`, and
any exception escaping past the caught classes is exactly the `KeyError`
from subscripting a dict value — on non-dict values it returns `None`
rather than raising.  A quote is produced exactly when both `float(raw[0])`
and `float(raw[1])` succeed, which includes the non-finite floats Infinity,
-Infinity and NaN: a pre-parsed pair of arbitrary floats is returned as is,
finite or not. -/
theorem C9_parse_prices_amended (raw : PyVal) (e : PyErr) (a b : PyFloat) :
    (parse_prices raw = .error e ↔
      e = .keyError ∧ ∃ v, decodeRaw raw = some v ∧ v.isDict = true) ∧
    (parse_prices raw = .ok (some (a, b)) ↔
      ∃ v, decodeRaw raw = some v ∧ floatAt v 0 = .ok a ∧ floatAt v 1 = .ok b) ∧
    (∀ s, jsonLoads s = Option.none → parse_prices (PyVal.str s) = .ok Option.none) ∧
    (∀ f g : PyFloat, parse_prices (PyVal.list [PyVal.num f, PyVal.num g]) = .ok (some (f, g))) := by
  refine ⟨parse_prices_error_iff raw e, parse_prices_quote_iff raw a b, ?_, fun f g => rfl⟩
  intro s hs
  simp [parse_prices, decodeRaw, hs]

/-! ## Claim C2 — the move history is a bounded FIFO buffer -/

theorem drop_append_left {α : Type} (A B : List α) (d : Nat) (h : d ≤ A.length) :
    (A ++ B).drop d = A.drop d ++ B := by
  rw [List.drop_append_eq_append_drop, Nat.sub_eq_zero_of_le h, List.drop_zero]

theorem dequeAppend_eq_drop (q : List Move) (m : Move) :
    dequeAppend q m = (q ++ [m]).drop (q.length + 1 - MAX_MOVES) := by
  unfold dequeAppend
  dsimp only
  split_ifs with h1
  · simp [List.length_append]
  · have h0 : q.length + 1 - MAX_MOVES = 0 := by
      simp only [List.length_append, List.length_cons, List.length_nil] at h1
      omega
    simp [h0]

theorem dequeAppend_length (q : List Move) (m : Move) :
    (dequeAppend q m).length = min (q.length + 1) MAX_MOVES := by
  rw [dequeAppend_eq_drop]
  simp only [List.length_drop, List.length_append, List.length_cons, List.length_nil]
  omega

theorem dequeAppend_length_le (q : List Move) (m : Move) (h : q.length ≤ MAX_MOVES) :
    (dequeAppend q m).length ≤ MAX_MOVES := by
  rw [dequeAppend_length]
  omega

set_option maxRecDepth 4096 in
/-- Repeated appends keep exactly the `MAX_MOVES` most recent entries: the
folded deque equals the tail-end suffix of the full append sequence. -/
theorem foldl_dequeAppend_eq (ms : List Move) (q : List Move) (h : q.length ≤ MAX_MOVES) :
    ms.foldl dequeAppend q = (q ++ ms).drop (q.length + ms.length - MAX_MOVES) := by
  induction ms generalizing q with
  | nil => simp [Nat.sub_eq_zero_of_le h]
  | cons m rest ih =>
    rw [List.foldl_cons, ih _ (dequeAppend_length_le q m h)]
    rw [dequeAppend_length, dequeAppend_eq_drop]
    rw [← drop_append_left (q ++ [m]) rest _ (by
      simp only [List.length_append, List.length_cons, List.length_nil]
      omega)]
    rw [List.drop_drop]
    rw [List.append_assoc, List.singleton_append]
    congr 1
    simp only [List.length_cons]
    omega

theorem foldl_dequeAppend_length_le (ms : List Move) (q : List Move)
    (h : q.length ≤ MAX_MOVES) : (ms.foldl dequeAppend q).length ≤ MAX_MOVES := by
  induction ms generalizing q with
  | nil => exact h
  | cons m rest ih => exact ih _ (dequeAppend_length_le q m h)

theorem mstep_rm_bound (now : ℚ) (ev : PMEvent) (meta : EventMeta) (acc : MarketAcc)
    (m : PMMarket) (h : acc.rm.length ≤ MAX_MOVES) :
    ((mstep now ev meta acc m).rm).length ≤ MAX_MOVES := by
  unfold mstep
  cases parsePricesFin m.outcomePrices with
  | none => exact h
  | some p =>
    cases p with
    | mk y n =>
      dsimp only
      split_ifs with hc
      · exact dequeAppend_length_le _ _ h
      · exact h

theorem mfold_rm_bound (now : ℚ) (ev : PMEvent) (meta : EventMeta) (ms : List PMMarket)
    (acc : MarketAcc) (h : acc.rm.length ≤ MAX_MOVES) :
    ((mfold now ev meta ms acc).rm).length ≤ MAX_MOVES := by
  induction ms generalizing acc with
  | nil => exact h
  | cons m rest ih => exact ih _ (mstep_rm_bound now ev meta acc m h)

theorem processEvent_rm_bound (now : ℚ) (acc : TickAcc) (ev : PMEvent)
    (h : acc.st.recent_moves.length ≤ MAX_MOVES) :
    ((processEvent now acc ev).st.recent_moves).length ≤ MAX_MOVES := by
  unfold processEvent
  dsimp only
  split_ifs <;> exact mfold_rm_bound now ev _ ev.markets _ h

theorem efold_rm_bound (now : ℚ) (fetched : List PMEvent) (acc : TickAcc)
    (h : acc.st.recent_moves.length ≤ MAX_MOVES) :
    ((efold now fetched acc).st.recent_moves).length ≤ MAX_MOVES := by
  induction fetched generalizing acc with
  | nil => exact h
  | cons ev rest ih => exact ih _ (processEvent_rm_bound now acc ev h)

/-- C2: the tick never grows the move history beyond `MAX_MOVES = 500`, and
appending 501 moves to an empty buffer keeps exactly the last 500 in
insertion order: the result is the tail of the append sequence, so the 1st
move (when not repeated later) is gone and the 2nd through 501st remain. -/
theorem C2_bounded_fifo_history (fetched : List PMEvent) (now : ℚ) (st : ScanState)
    (ms : List Move) (m0 : Move)
    (hb : st.recent_moves.length ≤ MAX_MOVES)
    (hlen : ms.length = MAX_MOVES + 1) :
    (scanTick fetched now st).st.recent_moves.length ≤ MAX_MOVES ∧
    ms.foldl dequeAppend [] = ms.tail ∧
    (ms.foldl dequeAppend []).length = MAX_MOVES ∧
    (ms.head? = some m0 → m0 ∉ ms.tail → m0 ∉ ms.foldl dequeAppend []) := by
  have hfold : ms.foldl dequeAppend [] = ms.tail := by
    rw [foldl_dequeAppend_eq ms [] (by simp [MAX_MOVES])]
    simp only [List.nil_append, List.length_nil, Nat.zero_add, hlen,
      Nat.add_sub_cancel_left]
    cases ms with
    | nil => simp
    | cons a l => rfl
  refine ⟨?_, hfold, ?_, ?_⟩
  · unfold scanTick
    dsimp only
    split_ifs <;> exact efold_rm_bound now fetched _ hb
  · rw [hfold]
    cases ms with
    | nil => simp at hlen
    | cons a l =>
      simp only [List.tail_cons]
      simp only [List.length_cons] at hlen
      omega
  · intro _ hnot
    rw [hfold]
    exact hnot

/-- C2 witness: the bounded-FIFO theorem applied to the empty state and the
concrete 501-move sequence `mkSampleMove 0 .. mkSampleMove 500`. -/
theorem C2_bounded_fifo_history_witness :
    exState0.recent_moves.length ≤ MAX_MOVES ∧
    ((List.range (MAX_MOVES + 1)).map mkSampleMove).length = MAX_MOVES + 1 ∧
    ((scanTick [] 100 exState0).st.recent_moves.length ≤ MAX_MOVES ∧
     ((List.range (MAX_MOVES + 1)).map mkSampleMove).foldl dequeAppend []
        = ((List.range (MAX_MOVES + 1)).map mkSampleMove).tail ∧
     (((List.range (MAX_MOVES + 1)).map mkSampleMove).foldl dequeAppend []).length = MAX_MOVES ∧
     (((List.range (MAX_MOVES + 1)).map mkSampleMove).head? = some (mkSampleMove 0) →
      mkSampleMove 0 ∉ ((List.range (MAX_MOVES + 1)).map mkSampleMove).tail →
      mkSampleMove 0 ∉ ((List.range (MAX_MOVES + 1)).map mkSampleMove).foldl dequeAppend [])) :=
  ⟨by decide, by simp,
    C2_bounded_fifo_history [] 100 exState0 ((List.range (MAX_MOVES + 1)).map mkSampleMove)
      (mkSampleMove 0) (by decide) (by simp)⟩

/-! ## Dict lemmas -/

theorem dictGet_cons {α : Type} (p : String × α) (rest : Dict α) (k : String) :
    dictGet (p :: rest) k = if p.1 = k then some p.2 else dictGet rest k := by
  by_cases h : p.1 = k
  · rw [dictGet, List.find?_cons_of_pos _ (by simpa using h), if_pos h]
    rfl
  · rw [dictGet, List.find?_cons_of_neg _ (by simpa using h), if_neg h]
    rfl

theorem dictContains_cons {α : Type} (p : String × α) (rest : Dict α) (k : String) :
    dictContains (p :: rest) k = ((p.1 == k) || dictContains rest k) := by
  simp [dictContains]

theorem dictDel_cons {α : Type} (p : String × α) (rest : Dict α) (k : String) :
    dictDel (p :: rest) k = if p.1 = k then dictDel rest k else p :: dictDel rest k := by
  by_cases h : p.1 = k <;> simp [dictDel, List.filter_cons, h]

theorem dictSet_cons {α : Type} (p : String × α) (rest : Dict α) (k : String) (v : α) :
    dictSet (p :: rest) k v = if p.1 = k then (k, v) :: rest else p :: dictSet rest k v := by
  by_cases h : p.1 = k <;> simp [dictSet, h]

theorem dictGet_set_self {α : Type} (d : Dict α) (k : String) (v : α) :
    dictGet (dictSet d k v) k = some v := by
  induction d with
  | nil => simp [dictSet, dictGet_cons]
  | cons p rest ih =>
    rw [dictSet_cons]
    by_cases h : p.1 = k
    · simp [h, dictGet_cons]
    · simp [h, dictGet_cons, ih]

theorem dictGet_set_ne {α : Type} (d : Dict α) (k k' : String) (v : α) (h : k' ≠ k) :
    dictGet (dictSet d k v) k' = dictGet d k' := by
  induction d with
  | nil => simp [dictSet, dictGet_cons, Ne.symm h, dictGet]
  | cons p rest ih =>
    rw [dictSet_cons]
    by_cases hp : p.1 = k
    · rw [if_pos hp, dictGet_cons, dictGet_cons]
      rw [if_neg (show ¬(k, v).1 = k' from Ne.symm h)]
      rw [if_neg (show ¬p.1 = k' from by rw [hp]; exact Ne.symm h)]
    · rw [if_neg hp, dictGet_cons, dictGet_cons, ih]

theorem dictContains_set_self {α : Type} (d : Dict α) (k : String) (v : α) :
    dictContains (dictSet d k v) k = true := by
  induction d with
  | nil => simp [dictSet, dictContains]
  | cons p rest ih =>
    rw [dictSet_cons]
    by_cases h : p.1 = k
    · simp [h, dictContains_cons]
    · simp [h, dictContains_cons, ih]

theorem dictContains_set_ne {α : Type} (d : Dict α) (k k' : String) (v : α) (h : k' ≠ k) :
    dictContains (dictSet d k v) k' = dictContains d k' := by
  induction d with
  | nil => simp [dictSet, dictContains, Ne.symm h]
  | cons p rest ih =>
    rw [dictSet_cons]
    by_cases hp : p.1 = k
    · rw [if_pos hp, dictContains_cons, dictContains_cons, hp]
    · rw [if_neg hp, dictContains_cons, dictContains_cons, ih]

theorem dictContains_del_self {α : Type} (d : Dict α) (k : String) :
    dictContains (dictDel d k) k = false := by
  induction d with
  | nil => simp [dictDel, dictContains]
  | cons p rest ih =>
    rw [dictDel_cons]
    by_cases h : p.1 = k
    · simp [h, ih]
    · simp [h, dictContains_cons, ih]

theorem dictContains_del_ne {α : Type} (d : Dict α) (k k' : String) (h : k' ≠ k) :
    dictContains (dictDel d k) k' = dictContains d k' := by
  induction d with
  | nil => simp [dictDel, dictContains]
  | cons p rest ih =>
    rw [dictDel_cons]
    by_cases hp : p.1 = k
    · rw [if_pos hp, ih, dictContains_cons, hp]
      simp [Ne.symm h]
    · rw [if_neg hp, dictContains_cons, dictContains_cons, ih]

theorem dictDel_not_contains {α : Type} (d : Dict α) (k : String)
    (h : dictContains d k = false) : dictDel d k = d := by
  induction d with
  | nil => rfl
  | cons p rest ih =>
    rw [dictContains_cons, Bool.or_eq_false_iff] at h
    rw [dictDel_cons, if_neg (by simpa using h.1), ih h.2]

/-! ## Parseable-market bookkeeping -/

theorem parseableIds_cons_none (m : PMMarket) (ms : List PMMarket)
    (h : parsePricesFin m.outcomePrices = Option.none) :
    parseableIds (m :: ms) = parseableIds ms := by
  simp [parseableIds, h]

theorem parseableIds_cons_some (m : PMMarket) (ms : List PMMarket) (p : ℚ × ℚ)
    (h : parsePricesFin m.outcomePrices = some p) :
    parseableIds (m :: ms) = m.id :: parseableIds ms := by
  simp [parseableIds, h]

theorem mem_parseableIds (m : PMMarket) (ms : List PMMarket) (p : ℚ × ℚ)
    (hm : m ∈ ms) (h : parsePricesFin m.outcomePrices = some p) :
    m.id ∈ parseableIds ms := by
  simp only [parseableIds, List.mem_filterMap]
  exact ⟨m, hm, by simp [h]⟩

theorem tickIds_cons (ev : PMEvent) (evs : List PMEvent) :
    tickIds (ev :: evs) = parseableIds ev.markets ++ tickIds evs := rfl

/-! ## Lemmas about the move condition -/

theorem fires_iff (lp : Dict (ℚ × ℚ)) (mid : String) (y n : ℚ) :
    fires lp mid y n ↔
      ((prevQuote lp mid y n).1 ≠ y ∨ (prevQuote lp mid y n).2 ≠ n) := by
  unfold fires
  constructor
  · rintro (h | h)
    · left; intro he; exact h (by rw [he]; ring)
    · right; intro he; exact h (by rw [he]; ring)
  · rintro (h | h)
    · left
      intro hc
      rcases mul_eq_zero.mp hc with h0 | h0
      · exact h (by linarith)
      · norm_num at h0
    · right
      intro hc
      rcases mul_eq_zero.mp hc with h0 | h0
      · exact h (by linarith)
      · norm_num at h0

theorem fires_congr (lp1 lp2 : Dict (ℚ × ℚ)) (mid : String) (y n : ℚ)
    (h : dictGet lp1 mid = dictGet lp2 mid) :
    fires lp1 mid y n ↔ fires lp2 mid y n := by
  unfold fires prevQuote
  rw [h]

theorem not_fires_of_new (lp : Dict (ℚ × ℚ)) (mid : String) (y n : ℚ)
    (h : dictGet lp mid = Option.none) : ¬ fires lp mid y n := by
  unfold fires prevQuote
  rw [h]
  simp

/-! ## Market-loop lemmas -/

theorem mstep_none (now : ℚ) (ev : PMEvent) (meta : EventMeta) (acc : MarketAcc)
    (m : PMMarket) (h : parsePricesFin m.outcomePrices = Option.none) :
    mstep now ev meta acc m = acc := by
  unfold mstep
  rw [h]

theorem mstep_some (now : ℚ) (ev : PMEvent) (meta : EventMeta) (acc : MarketAcc)
    (m : PMMarket) (y n : ℚ) (h : parsePricesFin m.outcomePrices = some (y, n)) :
    mstep now ev meta acc m =
      { lp := dictSet acc.lp m.id (y, n)
        rm := if fires acc.lp m.id y n
              then dequeAppend acc.rm (mkMove now ev meta m y n
                (prevQuote acc.lp m.id y n).1 (prevQuote acc.lp m.id y n).2)
              else acc.rm
        nm := acc.nm ++ (if fires acc.lp m.id y n
              then [mkMove now ev meta m y n
                (prevQuote acc.lp m.id y n).1 (prevQuote acc.lp m.id y n).2]
              else [])
        mkts := acc.mkts ++ [mkRec m y n (prevQuote acc.lp m.id y n).1 (prevQuote acc.lp m.id y n).2]
        tv := acc.tv + m.volume
        tl := acc.tl + m.liquidity } := by
  unfold mstep
  rw [h]
  simp only [fires, prevQuote]
  split_ifs with hf
  · rfl
  · simp

theorem mfold_cons (now : ℚ) (ev : PMEvent) (meta : EventMeta) (m : PMMarket)
    (ms : List PMMarket) (acc : MarketAcc) :
    mfold now ev meta (m :: ms) acc = mfold now ev meta ms (mstep now ev meta acc m) := rfl

/-- The inner market loop extends `new_moves` by a block `Δ`, appends the
same block to `recent_moves` through the deque, and every move of the block
belongs to one of the parseable markets of the list. -/
theorem mfold_decomp (now : ℚ) (ev : PMEvent) (meta : EventMeta)
    (ms : List PMMarket) (acc : MarketAcc) :
    ∃ Δ : List Move,
      (mfold now ev meta ms acc).nm = acc.nm ++ Δ ∧
      (mfold now ev meta ms acc).rm = Δ.foldl dequeAppend acc.rm ∧
      (∀ mv ∈ Δ, mv.market_id ∈ parseableIds ms) := by
  induction ms generalizing acc with
  | nil => exact ⟨[], by simp [mfold], by simp [mfold], by simp⟩
  | cons m rest ih =>
    rw [mfold_cons]
    cases hp : parsePricesFin m.outcomePrices with
    | none =>
      rw [mstep_none _ _ _ _ _ hp]
      obtain ⟨Δ, h1, h2, h3⟩ := ih acc
      refine ⟨Δ, h1, h2, fun mv hmv => ?_⟩
      rw [parseableIds_cons_none _ _ hp]
      exact h3 mv hmv
    | some p =>
      obtain ⟨y, n⟩ := p
      rw [mstep_some _ _ _ _ _ _ _ hp]
      obtain ⟨Δ, h1, h2, h3⟩ := ih _
      refine ⟨(if fires acc.lp m.id y n
          then [mkMove now ev meta m y n
            (prevQuote acc.lp m.id y n).1 (prevQuote acc.lp m.id y n).2]
          else []) ++ Δ, ?_, ?_, ?_⟩
      · rw [h1]
        dsimp only
        rw [List.append_assoc]
      · rw [h2, List.foldl_append]
        dsimp only
        by_cases hf : fires acc.lp m.id y n
        · rw [if_pos hf, if_pos hf]
          rfl
        · rw [if_neg hf, if_neg hf]
          rfl
      · intro mv hmv
        rw [parseableIds_cons_some _ _ _ hp]
        rcases List.mem_append.mp hmv with hin | hin
        · by_cases hf : fires acc.lp m.id y n
          · rw [if_pos hf] at hin
            rw [List.mem_singleton.mp hin]
            exact List.mem_cons_self _ _
          · rw [if_neg hf] at hin
            cases hin
        · exact List.mem_cons_of_mem _ (h3 mv hin)

/-- The inner market loop only writes `last_prices` at the ids of its
parseable markets. -/
theorem mfold_lp_ne (now : ℚ) (ev : PMEvent) (meta : EventMeta)
    (ms : List PMMarket) (acc : MarketAcc) (k : String)
    (hk : k ∉ parseableIds ms) :
    dictGet (mfold now ev meta ms acc).lp k = dictGet acc.lp k := by
  induction ms generalizing acc with
  | nil => rfl
  | cons m rest ih =>
    rw [mfold_cons]
    cases hp : parsePricesFin m.outcomePrices with
    | none =>
      rw [mstep_none _ _ _ _ _ hp]
      rw [parseableIds_cons_none _ _ hp] at hk
      exact ih acc hk
    | some p =>
      obtain ⟨y, n⟩ := p
      rw [parseableIds_cons_some _ _ _ hp] at hk
      have hk1 : k ≠ m.id := fun hh => hk (hh ▸ List.mem_cons_self _ _)
      have hk2 : k ∉ parseableIds rest := fun hh => hk (List.mem_cons_of_mem _ hh)
      rw [mstep_some _ _ _ _ _ _ _ hp, ih _ hk2]
      exact dictGet_set_ne _ _ _ _ hk1

/-- The record list of the inner market loop is empty exactly when it
started empty and no market of the list parses. -/
theorem mfold_mkts_nil_iff (now : ℚ) (ev : PMEvent) (meta : EventMeta)
    (ms : List PMMarket) (acc : MarketAcc) :
    ((mfold now ev meta ms acc).mkts = [] ↔ acc.mkts = [] ∧ hasParseable ms = false) := by
  induction ms generalizing acc with
  | nil => simp [mfold, hasParseable]
  | cons m rest ih =>
    rw [mfold_cons]
    cases hp : parsePricesFin m.outcomePrices with
    | none =>
      rw [mstep_none _ _ _ _ _ hp, ih]
      simp [hasParseable, hp]
    | some p =>
      obtain ⟨y, n⟩ := p
      rw [mstep_some _ _ _ _ _ _ _ hp, ih]
      dsimp only
      constructor
      · rintro ⟨h1, -⟩
        exact absurd h1 (by simp)
      · rintro ⟨-, h2⟩
        rw [show hasParseable (m :: rest) = true by simp [hasParseable, hp]] at h2
        cases h2

/-- A move for market `m` is recorded by the inner loop exactly when the
loop's entry table for `m.id` differs from the parsed quote (or a matching
move was already pending), provided the parseable ids are distinct. -/
theorem mfold_move_iff (now : ℚ) (ev : PMEvent) (meta : EventMeta)
    (ms : List PMMarket) (acc : MarketAcc) (m : PMMarket) (y n : ℚ)
    (hnd : (parseableIds ms).Nodup) (hm : m ∈ ms)
    (hp : parsePricesFin m.outcomePrices = some (y, n)) :
    ((∃ mv ∈ (mfold now ev meta ms acc).nm, mv.market_id = m.id) ↔
      (∃ mv ∈ acc.nm, mv.market_id = m.id) ∨ fires acc.lp m.id y n) := by
  induction ms generalizing acc with
  | nil => cases hm
  | cons m0 rest ih =>
    rw [mfold_cons]
    rcases List.mem_cons.mp hm with rfl | hmrest
    · rw [mstep_some _ _ _ _ _ _ _ hp]
      obtain ⟨Δ, h1, h2, h3⟩ := mfold_decomp now ev meta rest _
      rw [h1]
      dsimp only
      have hid : m.id ∉ parseableIds rest := by
        rw [parseableIds_cons_some _ _ _ hp] at hnd
        exact (List.nodup_cons.mp hnd).1
      constructor
      · rintro ⟨mv, hmv, hmid⟩
        rcases List.mem_append.mp hmv with hin | hin
        · rcases List.mem_append.mp hin with hin2 | hin2
          · exact Or.inl ⟨mv, hin2, hmid⟩
          · by_cases hf : fires acc.lp m.id y n
            · exact Or.inr hf
            · rw [if_neg hf] at hin2
              cases hin2
        · exact absurd (hmid ▸ h3 mv hin) hid
      · rintro (⟨mv, hmv, hmid⟩ | hf)
        · exact ⟨mv, List.mem_append.mpr (Or.inl (List.mem_append.mpr (Or.inl hmv))), hmid⟩
        · refine ⟨mkMove now ev meta m y n
            (prevQuote acc.lp m.id y n).1 (prevQuote acc.lp m.id y n).2, ?_, rfl⟩
          refine List.mem_append.mpr (Or.inl (List.mem_append.mpr (Or.inr ?_)))
          rw [if_pos hf]
          exact List.mem_singleton.mpr rfl
    · cases hp0 : parsePricesFin m0.outcomePrices with
      | none =>
        rw [mstep_none _ _ _ _ _ hp0]
        rw [parseableIds_cons_none _ _ hp0] at hnd
        exact ih acc hnd hmrest
      | some p0 =>
        obtain ⟨y0, n0⟩ := p0
        have hid0 : m0.id ∉ parseableIds rest := by
          rw [parseableIds_cons_some _ _ _ hp0] at hnd
          exact (List.nodup_cons.mp hnd).1
        have hmem : m.id ∈ parseableIds rest := mem_parseableIds m rest (y, n) hmrest hp
        have hne : m.id ≠ m0.id := fun hh => hid0 (hh ▸ hmem)
        have hnd2 : (parseableIds rest).Nodup := by
          rw [parseableIds_cons_some _ _ _ hp0] at hnd
          exact (List.nodup_cons.mp hnd).2
        rw [mstep_some _ _ _ _ _ _ _ hp0]
        rw [ih _ hnd2 hmrest]
        dsimp only
        have hnm : (∃ mv ∈ acc.nm ++ (if fires acc.lp m0.id y0 n0
            then [mkMove now ev meta m0 y0 n0
              (prevQuote acc.lp m0.id y0 n0).1 (prevQuote acc.lp m0.id y0 n0).2]
            else []), mv.market_id = m.id) ↔ (∃ mv ∈ acc.nm, mv.market_id = m.id) := by
          constructor
          · rintro ⟨mv, hmv, hmid⟩
            rcases List.mem_append.mp hmv with hin | hin
            · exact ⟨mv, hin, hmid⟩
            · by_cases hf : fires acc.lp m0.id y0 n0
              · rw [if_pos hf] at hin
                rw [List.mem_singleton.mp hin] at hmid
                exact absurd hmid.symm hne
              · rw [if_neg hf] at hin
                cases hin
          · rintro ⟨mv, hmv, hmid⟩
            exact ⟨mv, List.mem_append.mpr (Or.inl hmv), hmid⟩
        rw [hnm, fires_congr _ _ _ _ _ (dictGet_set_ne _ _ _ _ hne)]

/-! ## Event-loop lemmas -/

theorem efold_cons (now : ℚ) (ev : PMEvent) (evs : List PMEvent) (acc : TickAcc) :
    efold now (ev :: evs) acc = efold now evs (processEvent now acc ev) := rfl

theorem mem_tickIds (evs : List PMEvent) (ev : PMEvent) (x : String)
    (hev : ev ∈ evs) (hx : x ∈ parseableIds ev.markets) : x ∈ tickIds evs := by
  induction evs with
  | nil => cases hev
  | cons e es ih =>
    rw [tickIds_cons]
    rcases List.mem_cons.mp hev with rfl | h
    · exact List.mem_append.mpr (Or.inl hx)
    · exact List.mem_append.mpr (Or.inr (ih h))

/-- One event's processing extends `new_moves` by a block from its own
parseable markets and pushes the same block through the history deque. -/
theorem processEvent_decomp (now : ℚ) (acc : TickAcc) (ev : PMEvent) :
    ∃ Δ : List Move,
      (processEvent now acc ev).nm = acc.nm ++ Δ ∧
      (processEvent now acc ev).st.recent_moves = Δ.foldl dequeAppend acc.st.recent_moves ∧
      (∀ mv ∈ Δ, mv.market_id ∈ parseableIds ev.markets) := by
  unfold processEvent
  dsimp only
  split_ifs <;> exact mfold_decomp now ev _ ev.markets _

theorem processEvent_lp_ne (now : ℚ) (acc : TickAcc) (ev : PMEvent) (k : String)
    (hk : k ∉ parseableIds ev.markets) :
    dictGet (processEvent now acc ev).st.last_prices k = dictGet acc.st.last_prices k := by
  unfold processEvent
  dsimp only
  split_ifs <;> exact mfold_lp_ne now ev _ ev.markets _ k hk

theorem processEvent_move_iff (now : ℚ) (acc : TickAcc) (ev : PMEvent)
    (m : PMMarket) (y n : ℚ)
    (hnd : (parseableIds ev.markets).Nodup) (hm : m ∈ ev.markets)
    (hp : parsePricesFin m.outcomePrices = some (y, n)) :
    ((∃ mv ∈ (processEvent now acc ev).nm, mv.market_id = m.id) ↔
      (∃ mv ∈ acc.nm, mv.market_id = m.id) ∨ fires acc.st.last_prices m.id y n) := by
  unfold processEvent
  dsimp only
  split_ifs <;> exact mfold_move_iff now ev _ ev.markets _ m y n hnd hm hp

/-- Membership in `events_data` after one event is processed: the entry
survives unless this event has the same id and no parseable market. -/
theorem processEvent_data_contains (now : ℚ) (acc : TickAcc) (ev : PMEvent) (k : String) :
    (dictContains (processEvent now acc ev).st.events_data k = true ↔
      dictContains acc.st.events_data k = true ∧
        (ev.id = k → hasParseable ev.markets = true)) := by
  unfold processEvent
  dsimp only
  split_ifs with h1 h2
  · rw [List.isEmpty_iff, mfold_mkts_nil_iff] at h1
    by_cases hk : ev.id = k
    · subst hk
      rw [dictContains_del_self]
      constructor
      · intro hc
        cases hc
      · rintro ⟨-, himp⟩
        rw [himp rfl] at h1
        cases h1.2
    · rw [dictContains_del_ne _ _ _ (fun hh => hk hh.symm)]
      constructor
      · intro hc
        exact ⟨hc, fun hh => absurd hh hk⟩
      · rintro ⟨hc, -⟩
        exact hc
  · rw [List.isEmpty_iff, mfold_mkts_nil_iff] at h1
    by_cases hk : ev.id = k
    · subst hk
      constructor
      · intro hc
        exact absurd hc h2
      · rintro ⟨hc, -⟩
        exact absurd hc h2
    · constructor
      · intro hc
        exact ⟨hc, fun hh => absurd hh hk⟩
      · rintro ⟨hc, -⟩
        exact hc
  · have hP : hasParseable ev.markets = true := by
      rcases Bool.eq_false_or_eq_true (hasParseable ev.markets) with ht | hf
      · exact ht
      · exfalso
        apply h1
        rw [List.isEmpty_iff, mfold_mkts_nil_iff]
        exact ⟨rfl, hf⟩
    constructor
    · intro hc
      exact ⟨hc, fun _ => hP⟩
    · rintro ⟨hc, -⟩
      exact hc

/-- Membership in `updated` after one event is processed: the event is added
exactly when it has a parseable market. -/
theorem processEvent_updated_contains (now : ℚ) (acc : TickAcc) (ev : PMEvent) (k : String) :
    (dictContains (processEvent now acc ev).updated k = true ↔
      dictContains acc.updated k = true ∨
        (ev.id = k ∧ hasParseable ev.markets = true)) := by
  unfold processEvent
  dsimp only
  split_ifs with h1 h2
  · rw [List.isEmpty_iff, mfold_mkts_nil_iff] at h1
    constructor
    · exact fun hc => Or.inl hc
    · rintro (hc | ⟨-, hP⟩)
      · exact hc
      · rw [hP] at h1
        cases h1.2
  · rw [List.isEmpty_iff, mfold_mkts_nil_iff] at h1
    constructor
    · exact fun hc => Or.inl hc
    · rintro (hc | ⟨-, hP⟩)
      · exact hc
      · rw [hP] at h1
        cases h1.2
  · have hP : hasParseable ev.markets = true := by
      rcases Bool.eq_false_or_eq_true (hasParseable ev.markets) with ht | hf
      · exact ht
      · exfalso
        apply h1
        rw [List.isEmpty_iff, mfold_mkts_nil_iff]
        exact ⟨rfl, hf⟩
    by_cases hk : ev.id = k
    · subst hk
      rw [dictContains_set_self]
      constructor
      · intro _
        exact Or.inr ⟨rfl, hP⟩
      · intro _
        rfl
    · rw [dictContains_set_ne _ _ _ _ (fun hh => hk hh.symm)]
      constructor
      · exact fun hc => Or.inl hc
      · rintro (hc | ⟨hh, -⟩)
        · exact hc
        · exact absurd hh hk

theorem mfold_no_parse (now : ℚ) (ev : PMEvent) (meta : EventMeta)
    (ms : List PMMarket) (acc : MarketAcc) (h : hasParseable ms = false) :
    mfold now ev meta ms acc = acc := by
  induction ms generalizing acc with
  | nil => rfl
  | cons m rest ih =>
    rw [mfold_cons]
    cases hp : parsePricesFin m.outcomePrices with
    | some p =>
      exfalso
      simp [hasParseable, hp] at h
    | none =>
      rw [mstep_none _ _ _ _ _ hp]
      apply ih
      simpa [hasParseable, hp] using h

/-- An event with no parseable market leaves `updated`, `new_moves`, the
history and the price table unchanged, and removes at most its own id from
`events_data`. -/
theorem processEvent_no_parse_fields (now : ℚ) (acc : TickAcc) (ev : PMEvent)
    (h : hasParseable ev.markets = false) :
    (processEvent now acc ev).updated = acc.updated ∧
    (processEvent now acc ev).nm = acc.nm ∧
    (processEvent now acc ev).st.recent_moves = acc.st.recent_moves ∧
    (processEvent now acc ev).st.last_prices = acc.st.last_prices ∧
    (processEvent now acc ev).st.events_data = dictDel acc.st.events_data ev.id := by
  unfold processEvent
  dsimp only
  rw [mfold_no_parse _ _ _ _ _ h]
  dsimp only
  rw [if_pos (by rfl)]
  split_ifs with hdel
  · exact ⟨rfl, rfl, rfl, rfl, rfl⟩
  · refine ⟨rfl, rfl, rfl, rfl, ?_⟩
    rw [dictDel_not_contains _ _ (Bool.not_eq_true _ ▸ hdel)]

/-! ## Tick-level lemmas -/

/-- The event loop extends `new_moves` by a block whose moves belong to the
tick's parseable markets, and pushes exactly that block through the history
deque in order. -/
theorem efold_decomp (now : ℚ) (evs : List PMEvent) (acc : TickAcc) :
    ∃ Δ : List Move,
      (efold now evs acc).nm = acc.nm ++ Δ ∧
      (efold now evs acc).st.recent_moves = Δ.foldl dequeAppend acc.st.recent_moves ∧
      (∀ mv ∈ Δ, mv.market_id ∈ tickIds evs) := by
  induction evs generalizing acc with
  | nil => exact ⟨[], by simp [efold], by simp [efold], by simp⟩
  | cons ev evs ih =>
    rw [efold_cons]
    obtain ⟨Δ0, e1, e2, e3⟩ := processEvent_decomp now acc ev
    obtain ⟨Δ1, f1, f2, f3⟩ := ih (processEvent now acc ev)
    refine ⟨Δ0 ++ Δ1, ?_, ?_, ?_⟩
    · rw [f1, e1, List.append_assoc]
    · rw [f2, e2, List.foldl_append]
    · intro mv hmv
      rw [tickIds_cons]
      rcases List.mem_append.mp hmv with hin | hin
      · exact List.mem_append.mpr (Or.inl (e3 mv hin))
      · exact List.mem_append.mpr (Or.inr (f3 mv hin))

theorem efold_lp_ne (now : ℚ) (evs : List PMEvent) (acc : TickAcc) (k : String)
    (hk : k ∉ tickIds evs) :
    dictGet (efold now evs acc).st.last_prices k = dictGet acc.st.last_prices k := by
  induction evs generalizing acc with
  | nil => rfl
  | cons ev evs ih =>
    rw [tickIds_cons] at hk
    have hk1 : k ∉ parseableIds ev.markets := fun hh => hk (List.mem_append.mpr (Or.inl hh))
    have hk2 : k ∉ tickIds evs := fun hh => hk (List.mem_append.mpr (Or.inr hh))
    rw [efold_cons, ih _ hk2]
    exact processEvent_lp_ne now acc ev k hk1

/-- A move for market `m` of fetched event `ev` is in this tick's
`new_moves` exactly when `m`'s quote differs from the previous table entry,
provided no market id parses twice in the tick. -/
theorem efold_move_iff (now : ℚ) (evs : List PMEvent) (acc : TickAcc)
    (ev : PMEvent) (m : PMMarket) (y n : ℚ)
    (hnd : (tickIds evs).Nodup) (hev : ev ∈ evs) (hm : m ∈ ev.markets)
    (hp : parsePricesFin m.outcomePrices = some (y, n)) :
    ((∃ mv ∈ (efold now evs acc).nm, mv.market_id = m.id) ↔
      (∃ mv ∈ acc.nm, mv.market_id = m.id) ∨ fires acc.st.last_prices m.id y n) := by
  induction evs generalizing acc with
  | nil => cases hev
  | cons ev0 evs ih =>
    rw [tickIds_cons, List.nodup_append] at hnd
    obtain ⟨hndL, hndR, hdisj⟩ := hnd
    rcases List.mem_cons.mp hev with rfl | hev'
    · rw [efold_cons]
      have hmem : m.id ∈ parseableIds ev.markets := mem_parseableIds m _ (y, n) hm hp
      have hnot : m.id ∉ tickIds evs := fun hh => hdisj hmem hh
      obtain ⟨Δ, f1, f2, f3⟩ := efold_decomp now evs (processEvent now acc ev)
      rw [f1]
      have step := processEvent_move_iff now acc ev m y n hndL hm hp
      constructor
      · rintro ⟨mv, hmv, hmid⟩
        rcases List.mem_append.mp hmv with hin | hin
        · exact step.mp ⟨mv, hin, hmid⟩
        · exact absurd (hmid ▸ f3 mv hin) hnot
      · intro hyp
        obtain ⟨mv, hmv, hmid⟩ := step.mpr hyp
        exact ⟨mv, List.mem_append.mpr (Or.inl hmv), hmid⟩
    · rw [efold_cons]
      have hmemTick : m.id ∈ tickIds evs :=
        mem_tickIds evs ev m.id hev' (mem_parseableIds m _ (y, n) hm hp)
      have hk1 : m.id ∉ parseableIds ev0.markets := fun hh => hdisj hh hmemTick
      rw [ih _ hndR hev']
      obtain ⟨Δ0, e1, e2, e3⟩ := processEvent_decomp now acc ev0
      have hnm : (∃ mv ∈ (processEvent now acc ev0).nm, mv.market_id = m.id) ↔
          (∃ mv ∈ acc.nm, mv.market_id = m.id) := by
        rw [e1]
        constructor
        · rintro ⟨mv, hmv, hmid⟩
          rcases List.mem_append.mp hmv with hin | hin
          · exact ⟨mv, hin, hmid⟩
          · exact absurd (hmid ▸ e3 mv hin) hk1
        · rintro ⟨mv, hmv, hmid⟩
          exact ⟨mv, List.mem_append.mpr (Or.inl hmv), hmid⟩
      rw [hnm, fires_congr _ _ _ _ _ (processEvent_lp_ne now acc ev0 m.id hk1)]

/-- Membership in `updated` after the whole event loop. -/
theorem efold_updated_contains (now : ℚ) (evs : List PMEvent) (acc : TickAcc) (k : String) :
    (dictContains (efold now evs acc).updated k = true ↔
      dictContains acc.updated k = true ∨
        ∃ ev ∈ evs, ev.id = k ∧ hasParseable ev.markets = true) := by
  induction evs generalizing acc with
  | nil => simp [efold]
  | cons ev evs ih =>
    rw [efold_cons, ih, processEvent_updated_contains, List.exists_mem_cons_iff, or_assoc]

/-- Membership in `events_data` after the whole event loop (before the
publish step): an entry survives exactly when no fetched event with its id
lacked parseable markets. -/
theorem efold_data_contains (now : ℚ) (evs : List PMEvent) (acc : TickAcc) (k : String) :
    (dictContains (efold now evs acc).st.events_data k = true ↔
      dictContains acc.st.events_data k = true ∧
        ∀ ev ∈ evs, ev.id = k → hasParseable ev.markets = true) := by
  induction evs generalizing acc with
  | nil => simp [efold]
  | cons ev evs ih =>
    rw [efold_cons, ih, processEvent_data_contains, List.forall_mem_cons, and_assoc]

/-- The event loop over a fetch in which no event has a parseable market:
nothing is updated or recorded; the only effect on the published data is the
in-loop eviction of the fetched ids. -/
theorem efold_no_parse (now : ℚ) (evs : List PMEvent) (acc : TickAcc)
    (h : ∀ ev ∈ evs, hasParseable ev.markets = false) :
    (efold now evs acc).updated = acc.updated ∧
    (efold now evs acc).nm = acc.nm ∧
    (efold now evs acc).st.recent_moves = acc.st.recent_moves ∧
    (efold now evs acc).st.last_prices = acc.st.last_prices ∧
    (efold now evs acc).st.events_data
      = evs.foldl (fun d ev => dictDel d ev.id) acc.st.events_data := by
  induction evs generalizing acc with
  | nil => exact ⟨rfl, rfl, rfl, rfl, rfl⟩
  | cons ev evs ih =>
    obtain ⟨p1, p2, p3, p4, p5⟩ :=
      processEvent_no_parse_fields now acc ev (h ev (List.mem_cons_self _ _))
    obtain ⟨q1, q2, q3, q4, q5⟩ :=
      ih (processEvent now acc ev) (fun e he => h e (List.mem_cons_of_mem _ he))
    rw [efold_cons]
    refine ⟨q1.trans p1, q2.trans p2, q3.trans p3, q4.trans p4, ?_⟩
    rw [q5, p5, List.foldl_cons]

theorem scanTick_newMoves_eq (fetched : List PMEvent) (now : ℚ) (st : ScanState) :
    (scanTick fetched now st).newMoves
      = (efold now fetched { st := st, updated := [], nm := [] }).nm := rfl

theorem scanTick_rm_eq (fetched : List PMEvent) (now : ℚ) (st : ScanState) :
    (scanTick fetched now st).st.recent_moves
      = (efold now fetched { st := st, updated := [], nm := [] }).st.recent_moves := by
  unfold scanTick
  dsimp only
  split_ifs <;> rfl

/-! ## Claim C1 — a Move is recorded iff a price differs from the table -/

/-- C1: on a steady-state tick (with tick-wide distinct parseable market
ids), a market with a parseable quote gets a Move recorded exactly when one
of its two prices differs from the previous tick's `last_prices` entry
(defaulting to the current quote when absent, so a first sighting records
nothing), and the recorded moves are exactly the ones appended to the
history deque in order. -/
theorem C1_move_iff_price_change (fetched : List PMEvent) (now : ℚ) (st : ScanState)
    (ev : PMEvent) (m : PMMarket) (y n : ℚ)
    (hnd : (tickIds fetched).Nodup)
    (hev : ev ∈ fetched) (hm : m ∈ ev.markets)
    (hp : parsePricesFin m.outcomePrices = some (y, n)) :
    ((∃ mv ∈ (scanTick fetched now st).newMoves, mv.market_id = m.id) ↔
      (((dictGet st.last_prices m.id).getD (y, n)).1 ≠ y ∨
       ((dictGet st.last_prices m.id).getD (y, n)).2 ≠ n)) ∧
    (dictGet st.last_prices m.id = Option.none →
      ¬ ∃ mv ∈ (scanTick fetched now st).newMoves, mv.market_id = m.id) ∧
    (scanTick fetched now st).st.recent_moves
      = (scanTick fetched now st).newMoves.foldl dequeAppend st.recent_moves := by
  have hiff := efold_move_iff now fetched { st := st, updated := [], nm := [] } ev m y n hnd hev hm hp
  have hiff2 : (∃ mv ∈ (scanTick fetched now st).newMoves, mv.market_id = m.id) ↔
      fires st.last_prices m.id y n := by
    rw [scanTick_newMoves_eq, hiff]
    simp
  refine ⟨?_, ?_, ?_⟩
  · rw [hiff2]
    exact fires_iff st.last_prices m.id y n
  · intro hnone hex
    exact not_fires_of_new st.last_prices m.id y n hnone (hiff2.mp hex)
  · obtain ⟨Δ, f1, f2, f3⟩ := efold_decomp now fetched { st := st, updated := [], nm := [] }
    have h1 : (scanTick fetched now st).newMoves = Δ := by
      rw [scanTick_newMoves_eq, f1]
      rfl
    rw [h1, scanTick_rm_eq, f2]

/-- C1 witness: the spec's scenario `M1 : (0.40, 0.60) → (0.45, 0.55)`,
instantiating the tick-level iff at a concrete fetched list and state. -/
theorem C1_witness :
    (tickIds [exEvent exQuoteB]).Nodup ∧
    exEvent exQuoteB ∈ [exEvent exQuoteB] ∧
    exMarket exQuoteB ∈ (exEvent exQuoteB).markets ∧
    parsePricesFin (exMarket exQuoteB).outcomePrices = some (9 / 20, 11 / 20) ∧
    (((∃ mv ∈ (scanTick [exEvent exQuoteB] 200 exStatePre).newMoves,
        mv.market_id = (exMarket exQuoteB).id) ↔
      (((dictGet exStatePre.last_prices (exMarket exQuoteB).id).getD (9 / 20, 11 / 20)).1 ≠ 9 / 20 ∨
       ((dictGet exStatePre.last_prices (exMarket exQuoteB).id).getD (9 / 20, 11 / 20)).2 ≠ 11 / 20)) ∧
    (dictGet exStatePre.last_prices (exMarket exQuoteB).id = Option.none →
      ¬ ∃ mv ∈ (scanTick [exEvent exQuoteB] 200 exStatePre).newMoves,
          mv.market_id = (exMarket exQuoteB).id) ∧
    (scanTick [exEvent exQuoteB] 200 exStatePre).st.recent_moves
      = (scanTick [exEvent exQuoteB] 200 exStatePre).newMoves.foldl
          dequeAppend exStatePre.recent_moves) :=
  ⟨by decide, List.mem_singleton.mpr rfl, List.mem_singleton.mpr rfl, rfl,
    C1_move_iff_price_change [exEvent exQuoteB] 200 exStatePre (exEvent exQuoteB)
      (exMarket exQuoteB) (9 / 20) (11 / 20) (by decide)
      (List.mem_singleton.mpr rfl) (List.mem_singleton.mpr rfl) rfl⟩

/-! ## Claim C6 — events without parseable markets are evicted -/

/-- C6: on a steady-state tick with distinct fetched event ids, a fetched
event is present in the published snapshot set after the tick exactly when
its payload carried at least one market with a parseable price. -/
theorem C6_zero_market_eviction (fetched : List PMEvent) (now : ℚ) (st : ScanState)
    (ev : PMEvent)
    (hnd : (fetched.map (fun e => e.id)).Nodup) (hev : ev ∈ fetched) :
    (dictContains (scanTick fetched now st).st.events_data ev.id = true ↔
      hasParseable ev.markets = true) := by
  unfold scanTick
  dsimp only
  split_ifs with hemp
  · have hnoP : hasParseable ev.markets = false := by
      rcases Bool.eq_false_or_eq_true (hasParseable ev.markets) with ht | hf
      · exfalso
        have hu := (efold_updated_contains now fetched
          { st := st, updated := [], nm := [] } ev.id).mpr (Or.inr ⟨ev, hev, rfl, ht⟩)
        rw [List.isEmpty_iff] at hemp
        rw [hemp] at hu
        simp [dictContains] at hu
      · exact hf
    rw [efold_data_contains]
    constructor
    · rintro ⟨-, hall⟩
      have hc := hall ev hev rfl
      rw [hnoP] at hc
      cases hc
    · intro hc
      rw [hc] at hnoP
      cases hnoP
  · rw [show ({ (efold now fetched { st := st, updated := [], nm := [] }).st with
        events_data := (efold now fetched { st := st, updated := [], nm := [] }).updated } :
          ScanState).events_data
      = (efold now fetched { st := st, updated := [], nm := [] }).updated from rfl]
    rw [efold_updated_contains]
    constructor
    · rintro (hc | ⟨ev', hev', hid, hP⟩)
      · simp [dictContains] at hc
      · have heq : ev' = ev := List.inj_on_of_nodup_map hnd hev' hev hid
        rwa [heq] at hP
    · intro hP
      exact Or.inr ⟨ev, hev, rfl, hP⟩

/-- C6 witness: a tick fetching one event with a parseable market and one
event with no markets, against the pre-populated state. -/
theorem C6_zero_market_eviction_witness :
    ([exEvent exQuoteB, exEmptyEvent].map (fun e => e.id)).Nodup ∧
    exEmptyEvent ∈ [exEvent exQuoteB, exEmptyEvent] ∧
    (dictContains (scanTick [exEvent exQuoteB, exEmptyEvent] 200 exStatePre).st.events_data
        exEmptyEvent.id = true ↔
      hasParseable exEmptyEvent.markets = true) :=
  ⟨by decide, List.mem_cons_of_mem _ (List.mem_singleton.mpr rfl),
    C6_zero_market_eviction [exEvent exQuoteB, exEmptyEvent] 200 exStatePre exEmptyEvent
      (by decide) (List.mem_cons_of_mem _ (List.mem_singleton.mpr rfl))⟩

/-! ## Claim C10 — a tick with an empty update set -/

/-- C10 counterexample: with `E1` published and a fetch returning `E1` with
no parseable market, the tick assembles an empty update set, yet the
published snapshot set changes — the in-loop cleanup evicts `E1` — so "the
scan loop leaves the previously published snapshot set unchanged" is false
on the code. -/
theorem C10_counterexample :
    (∀ ev ∈ [exEventBad], hasParseable ev.markets = false) ∧
    (scanTick [exEventBad] 400 exStatePre).st.events_data = [] ∧
    exStatePre.events_data ≠ [] := by
  refine ⟨by decide, by decide, by decide⟩

/-- C10 as amended: when no fetched event has a parseable market the update
set stays empty, so the publish step is skipped — `events_data` is not
replaced (in particular never replaced by the empty update set),
`save_events_to_file` is not called, no moves are recorded, and the history
is re-saved with unchanged contents; but the published snapshot set is not
left untouched: the fetched events' ids are still evicted from it by the
in-loop cleanup. -/
theorem C10_empty_update_set (fetched : List PMEvent) (now : ℚ) (st : ScanState)
    (hall : ∀ ev ∈ fetched, hasParseable ev.markets = false) :
    (scanTick fetched now st).st.events_data
        = fetched.foldl (fun d ev => dictDel d ev.id) st.events_data ∧
    (scanTick fetched now st).st.recent_moves = st.recent_moves ∧
    (scanTick fetched now st).st.last_prices = st.last_prices ∧
    (scanTick fetched now st).newMoves = [] ∧
    (scanTick fetched now st).savedEvents = Option.none ∧
    (scanTick fetched now st).savedMoves = st.recent_moves := by
  obtain ⟨q1, q2, q3, q4, q5⟩ := efold_no_parse now fetched { st := st, updated := [], nm := [] } hall
  unfold scanTick
  dsimp only
  rw [show (efold now fetched { st := st, updated := [], nm := [] }).updated = [] from q1]
  simp only [List.isEmpty_nil, eq_self_iff_true, if_true]
  exact ⟨q5, q3, q4, q2, trivial, q3⟩

/-- C10 witness: the amended statement applied to a fetch returning only the
marketless event `E2` against the pre-populated state. -/
theorem C10_empty_update_set_witness :
    (∀ ev ∈ [exEmptyEvent], hasParseable ev.markets = false) ∧
    ((scanTick [exEmptyEvent] 400 exStatePre).st.events_data
        = [exEmptyEvent].foldl (fun d ev => dictDel d ev.id) exStatePre.events_data ∧
    (scanTick [exEmptyEvent] 400 exStatePre).st.recent_moves = exStatePre.recent_moves ∧
    (scanTick [exEmptyEvent] 400 exStatePre).st.last_prices = exStatePre.last_prices ∧
    (scanTick [exEmptyEvent] 400 exStatePre).newMoves = [] ∧
    (scanTick [exEmptyEvent] 400 exStatePre).savedEvents = Option.none ∧
    (scanTick [exEmptyEvent] 400 exStatePre).savedMoves = exStatePre.recent_moves) :=
  ⟨by decide, C10_empty_update_set [exEmptyEvent] 400 exStatePre (by decide)⟩

/-! ## Claim C4 — a tick whose fetch fails all retries -/

/-- When every attempt at the first page fails, `fetch_all_events` returns
the accumulated output — the empty list — instead of raising. -/
theorem fetch_all_events_all_fail (net : Nat → Nat → Option (List PMEvent)) (fuel : Nat)
    (h : ∀ a, a < 3 → net 0 a = Option.none) :
    fetch_all_events net fuel = [] := by
  cases fuel with
  | zero => rfl
  | succ k =>
    unfold fetch_all_events fetchPages
    rw [show attemptPage net 0 0 3 = Option.none by
      simp [attemptPage, h 0 (by omega), h 1 (by omega), h 2 (by omega)]]

/-- C4 counterexample: with the fetch failing all 3 retries, the tick still
publishes the normal success status: its `last_update` is the current tick
time `105`, not the pre-tick value `100`, and its text is the usual
"Updated N events" message, not an error state.  (The snapshot and history
are indeed unchanged — only the status half of the claim fails.) -/
theorem C4_counterexample :
    fetch_all_events failNet 1 = [] ∧
    (scanTick (fetch_all_events failNet 1) 105 exStatePre).status.last_update = 105 ∧
    (105 : ℚ) ≠ 100 ∧
    (scanTick (fetch_all_events failNet 1) 105 exStatePre).status.text
      = "Updated 1 events with markets" ∧
    (scanTick (fetch_all_events failNet 1) 105 exStatePre).status.sound_trigger = Option.none ∧
    (scanTick (fetch_all_events failNet 1) 105 exStatePre).st.events_data
      = exStatePre.events_data ∧
    (scanTick (fetch_all_events failNet 1) 105 exStatePre).st.recent_moves
      = exStatePre.recent_moves := by
  refine ⟨rfl, rfl, by norm_num, by decide, rfl, rfl, rfl⟩

/-- C4 as amended: if the fetch fails all 3 retries on a tick,
`fetch_all_events` swallows the failure and returns the empty list, so the
tick completes normally with no events: the snapshot set, move history,
price table and metadata are unchanged and no moves are recorded — but the
published status is the ordinary success message with `last_update` set to
the current tick time, not an error state preserving the previous
`last_update`. -/
theorem C4_failed_fetch (net : Nat → Nat → Option (List PMEvent)) (fuel : Nat)
    (st : ScanState) (now : ℚ)
    (h : ∀ a, a < 3 → net 0 a = Option.none) :
    fetch_all_events net fuel = [] ∧
    (scanTick (fetch_all_events net fuel) now st).st.events_data = st.events_data ∧
    (scanTick (fetch_all_events net fuel) now st).st.recent_moves = st.recent_moves ∧
    (scanTick (fetch_all_events net fuel) now st).st.last_prices = st.last_prices ∧
    (scanTick (fetch_all_events net fuel) now st).st.events_meta = st.events_meta ∧
    (scanTick (fetch_all_events net fuel) now st).newMoves = [] ∧
    (scanTick (fetch_all_events net fuel) now st).savedEvents = Option.none ∧
    (scanTick (fetch_all_events net fuel) now st).savedMoves = st.recent_moves ∧
    (scanTick (fetch_all_events net fuel) now st).status
      = { text := "Updated " ++ toString (dictLen st.events_data) ++ " events with markets"
          last_update := now
          sound_trigger := Option.none } := by
  have hf := fetch_all_events_all_fail net fuel h
  rw [hf]
  exact ⟨rfl, rfl, rfl, rfl, rfl, rfl, rfl, rfl, rfl⟩

/-- C4 witness: the amended statement applied to the always-failing network
and the pre-populated state. -/
theorem C4_failed_fetch_witness :
    (∀ a, a < 3 → failNet 0 a = Option.none) ∧
    (fetch_all_events failNet 1 = [] ∧
    (scanTick (fetch_all_events failNet 1) 105 exStatePre).st.events_data
      = exStatePre.events_data ∧
    (scanTick (fetch_all_events failNet 1) 105 exStatePre).st.recent_moves
      = exStatePre.recent_moves ∧
    (scanTick (fetch_all_events failNet 1) 105 exStatePre).st.last_prices
      = exStatePre.last_prices ∧
    (scanTick (fetch_all_events failNet 1) 105 exStatePre).st.events_meta
      = exStatePre.events_meta ∧
    (scanTick (fetch_all_events failNet 1) 105 exStatePre).newMoves = [] ∧
    (scanTick (fetch_all_events failNet 1) 105 exStatePre).savedEvents = Option.none ∧
    (scanTick (fetch_all_events failNet 1) 105 exStatePre).savedMoves
      = exStatePre.recent_moves ∧
    (scanTick (fetch_all_events failNet 1) 105 exStatePre).status
      = { text := "Updated " ++ toString (dictLen exStatePre.events_data) ++ " events with markets"
          last_update := 105
          sound_trigger := Option.none }) :=
  ⟨fun _ _ => rfl, C4_failed_fetch failNet 1 exStatePre 105 (fun _ _ => rfl)⟩

/-! ## Claim C5 — what the initial seed does and does not populate -/

theorem seedPhase_cons (st : ScanState) (ev : PMEvent) (evs : List PMEvent) :
    seedPhase st (ev :: evs) = seedPhase (seedEvent st ev) evs := rfl

theorem seedPhase_events_data (st : ScanState) (evs : List PMEvent) :
    (seedPhase st evs).events_data = st.events_data := by
  induction evs generalizing st with
  | nil => rfl
  | cons ev evs ih =>
    rw [seedPhase_cons, ih]
    rfl

theorem seedPhase_recent_moves (st : ScanState) (evs : List PMEvent) :
    (seedPhase st evs).recent_moves = st.recent_moves := by
  induction evs generalizing st with
  | nil => rfl
  | cons ev evs ih =>
    rw [seedPhase_cons, ih]
    rfl

theorem seedStep_none (lp : Dict (ℚ × ℚ)) (m : PMMarket)
    (h : parsePricesFin m.outcomePrices = Option.none) : seedStep lp m = lp := by
  unfold seedStep
  rw [h]

theorem seedStep_some (lp : Dict (ℚ × ℚ)) (m : PMMarket) (p : ℚ × ℚ)
    (h : parsePricesFin m.outcomePrices = some p) : seedStep lp m = dictSet lp m.id p := by
  unfold seedStep
  rw [h]

/-- The seed's market fold writes only at the ids of its parseable
markets. -/
theorem seedMarkets_lp_ne (ms : List PMMarket) (lp : Dict (ℚ × ℚ)) (k : String)
    (hk : k ∉ parseableIds ms) :
    dictGet (ms.foldl seedStep lp) k = dictGet lp k := by
  induction ms generalizing lp with
  | nil => rfl
  | cons m rest ih =>
    rw [List.foldl_cons]
    cases hp : parsePricesFin m.outcomePrices with
    | none =>
      rw [seedStep_none _ _ hp]
      rw [parseableIds_cons_none _ _ hp] at hk
      exact ih _ hk
    | some p =>
      rw [parseableIds_cons_some _ _ _ hp] at hk
      have hk1 : k ≠ m.id := fun hh => hk (hh ▸ List.mem_cons_self _ _)
      have hk2 : k ∉ parseableIds rest := fun hh => hk (List.mem_cons_of_mem _ hh)
      rw [seedStep_some _ _ _ hp, ih _ hk2]
      exact dictGet_set_ne _ _ _ _ hk1

/-- The seed's market fold stores the parsed quote itself as the baseline
for every parseable market (with distinct parseable ids). -/
theorem seedMarkets_lp_value (ms : List PMMarket) (lp : Dict (ℚ × ℚ))
    (m : PMMarket) (p : ℚ × ℚ)
    (hnd : (parseableIds ms).Nodup) (hm : m ∈ ms)
    (hp : parsePricesFin m.outcomePrices = some p) :
    dictGet (ms.foldl seedStep lp) m.id = some p := by
  induction ms generalizing lp with
  | nil => cases hm
  | cons m0 rest ih =>
    rw [List.foldl_cons]
    rcases List.mem_cons.mp hm with rfl | hmr
    · rw [seedStep_some _ _ _ hp]
      have hid : m.id ∉ parseableIds rest := by
        rw [parseableIds_cons_some _ _ _ hp] at hnd
        exact (List.nodup_cons.mp hnd).1
      rw [seedMarkets_lp_ne rest _ _ hid]
      exact dictGet_set_self _ _ _
    · cases hp0 : parsePricesFin m0.outcomePrices with
      | none =>
        rw [seedStep_none _ _ hp0]
        rw [parseableIds_cons_none _ _ hp0] at hnd
        exact ih _ hnd hmr
      | some p0 =>
        rw [seedStep_some _ _ _ hp0]
        rw [parseableIds_cons_some _ _ _ hp0] at hnd
        exact ih _ (List.nodup_cons.mp hnd).2 hmr

theorem seedEvent_lp_eq (st : ScanState) (ev : PMEvent) :
    (seedEvent st ev).last_prices = ev.markets.foldl seedStep st.last_prices := rfl

theorem seedEvent_meta_self (st : ScanState) (ev : PMEvent) :
    dictGet (seedEvent st ev).events_meta ev.id = some (freshMeta ev) :=
  dictGet_set_self _ _ _

theorem seedEvent_meta_ne (st : ScanState) (ev : PMEvent) (k : String) (h : k ≠ ev.id) :
    dictGet (seedEvent st ev).events_meta k = dictGet st.events_meta k :=
  dictGet_set_ne _ _ _ _ h

theorem seedPhase_lp_ne (evs : List PMEvent) (st : ScanState) (k : String)
    (hk : k ∉ tickIds evs) :
    dictGet (seedPhase st evs).last_prices k = dictGet st.last_prices k := by
  induction evs generalizing st with
  | nil => rfl
  | cons ev evs ih =>
    rw [tickIds_cons] at hk
    have hk1 : k ∉ parseableIds ev.markets := fun hh => hk (List.mem_append.mpr (Or.inl hh))
    have hk2 : k ∉ tickIds evs := fun hh => hk (List.mem_append.mpr (Or.inr hh))
    rw [seedPhase_cons, ih _ hk2, seedEvent_lp_eq]
    exact seedMarkets_lp_ne _ _ _ hk1

/-- Across the whole seed, every parseable market ends with its own parsed
quote as the stored baseline (with tick-wide distinct parseable ids). -/
theorem seedPhase_lp_value (evs : List PMEvent) (st : ScanState)
    (ev : PMEvent) (m : PMMarket) (p : ℚ × ℚ)
    (hnd : (tickIds evs).Nodup) (hev : ev ∈ evs) (hm : m ∈ ev.markets)
    (hp : parsePricesFin m.outcomePrices = some p) :
    dictGet (seedPhase st evs).last_prices m.id = some p := by
  induction evs generalizing st with
  | nil => cases hev
  | cons ev0 evs ih =>
    rw [seedPhase_cons]
    rw [tickIds_cons, List.nodup_append] at hnd
    obtain ⟨hndL, hndR, hdisj⟩ := hnd
    rcases List.mem_cons.mp hev with rfl | hev'
    · have hmem : m.id ∈ parseableIds ev.markets := mem_parseableIds m _ p hm hp
      have hnot : m.id ∉ tickIds evs := fun hh => hdisj hmem hh
      rw [seedPhase_lp_ne evs _ _ hnot, seedEvent_lp_eq]
      exact seedMarkets_lp_value _ _ m p hndL hm hp
    · exact ih _ hndR hev'

theorem seedPhase_meta_ne (evs : List PMEvent) (st : ScanState) (k : String)
    (hk : k ∉ evs.map (fun e => e.id)) :
    dictGet (seedPhase st evs).events_meta k = dictGet st.events_meta k := by
  induction evs generalizing st with
  | nil => rfl
  | cons ev evs ih =>
    rw [List.map_cons] at hk
    have hk1 : k ≠ ev.id := fun hh => hk (hh ▸ List.mem_cons_self _ _)
    have hk2 : k ∉ evs.map (fun e => e.id) := fun hh => hk (List.mem_cons_of_mem _ hh)
    rw [seedPhase_cons, ih _ hk2]
    exact seedEvent_meta_ne st ev k hk1

/-- Across the whole seed, every fetched event ends with its freshly built
metadata record stored under its id (with distinct fetched event ids). -/
theorem seedPhase_meta_value (evs : List PMEvent) (st : ScanState) (ev : PMEvent)
    (hnd : (evs.map (fun e => e.id)).Nodup) (hev : ev ∈ evs) :
    dictGet (seedPhase st evs).events_meta ev.id = some (freshMeta ev) := by
  induction evs generalizing st with
  | nil => cases hev
  | cons ev0 evs ih =>
    rw [seedPhase_cons]
    rw [List.map_cons, List.nodup_cons] at hnd
    rcases List.mem_cons.mp hev with rfl | hev'
    · rw [seedPhase_meta_ne evs _ _ hnd.1]
      exact seedEvent_meta_self st ev
    · exact ih _ hnd.2 hev'

/-- C5 counterexample: seeding the empty state with an event whose market
parses leaves the snapshot set empty — no `EventSnapshot` with zero-valued
FLAT deltas is created by the seed — while the baseline quote is recorded
and no moves are produced. -/
theorem C5_counterexample :
    exSeeded.events_data = [] ∧
    hasParseable (exEvent exQuoteA).markets = true ∧
    dictContains exSeeded.last_prices "M1" = true ∧
    exSeeded.recent_moves = [] := by
  refine ⟨by decide, by decide, by decide, by decide⟩

/-- C5 as amended: the one-time seed phase populates the `LastPriceTable`
with the parsed quote itself as the baseline of every parseable market and
stores each fetched event's freshly built metadata record under its id
(both stated under the realistic side conditions that no market id parses
twice and no event id is fetched twice), and it records no Moves; but it
does not populate the snapshot set — the pre-loop `EventSnapshot` set stays
exactly what was loaded from disk, and snapshots (whose first-tick deltas
are zero-valued FLAT records) appear only on the first steady-state
tick. -/
theorem C5_seed_baselines (st : ScanState) (fetched : List PMEvent)
    (ev : PMEvent) (m : PMMarket) (p : ℚ × ℚ)
    (hndM : (tickIds fetched).Nodup)
    (hndE : (fetched.map (fun e => e.id)).Nodup)
    (hev : ev ∈ fetched) (hm : m ∈ ev.markets)
    (hp : parsePricesFin m.outcomePrices = some p) :
    (seedPhase st fetched).events_data = st.events_data ∧
    (seedPhase st fetched).recent_moves = st.recent_moves ∧
    dictGet (seedPhase st fetched).last_prices m.id = some p ∧
    dictGet (seedPhase st fetched).events_meta ev.id = some (freshMeta ev) :=
  ⟨seedPhase_events_data st fetched, seedPhase_recent_moves st fetched,
    seedPhase_lp_value fetched st ev m p hndM hev hm hp,
    seedPhase_meta_value fetched st ev hndE hev⟩

/-- C5 witness: the amended statement applied to the empty state seeded with
the single event `E1` quoting `(0.40, 0.60)`: the stored baseline is the
quote itself and the stored metadata is the freshly built record. -/
theorem C5_seed_baselines_witness :
    (tickIds [exEvent exQuoteA]).Nodup ∧
    (([exEvent exQuoteA]).map (fun e => e.id)).Nodup ∧
    exEvent exQuoteA ∈ [exEvent exQuoteA] ∧
    exMarket exQuoteA ∈ (exEvent exQuoteA).markets ∧
    parsePricesFin (exMarket exQuoteA).outcomePrices = some (2 / 5, 3 / 5) ∧
    ((seedPhase exState0 [exEvent exQuoteA]).events_data = exState0.events_data ∧
     (seedPhase exState0 [exEvent exQuoteA]).recent_moves = exState0.recent_moves ∧
     dictGet (seedPhase exState0 [exEvent exQuoteA]).last_prices (exMarket exQuoteA).id
       = some (2 / 5, 3 / 5) ∧
     dictGet (seedPhase exState0 [exEvent exQuoteA]).events_meta (exEvent exQuoteA).id
       = some (freshMeta (exEvent exQuoteA))) :=
  ⟨by decide, by decide, List.mem_singleton.mpr rfl, List.mem_singleton.mpr rfl, rfl,
    C5_seed_baselines exState0 [exEvent exQuoteA] (exEvent exQuoteA) (exMarket exQuoteA)
      (2 / 5, 3 / 5) (by decide) (by decide) (List.mem_singleton.mpr rfl)
      (List.mem_singleton.mpr rfl) rfl⟩

end Arbgoonio
